import Mathlib

/-!
Verification of the motion-planning core of the sionna-rt-jamming repository.

The Python source is shallowly embedded:
* points are triples of exact numbers (rationals or reals standing for the
  source's floating-point values),
* the world model (`is_position_valid`), line-of-sight sampling, the
  closed-form kinematic strategy, the trajectory store with its padding
  logic, the A* search and the GraphNav control flow are each translated
  definition by definition from `src/core/engine.py`, `src/core/utils.py`,
  `src/core/strategies.py` and `src/archive/motion_engine.py`,
* Python `IndexError` sites (indexing an empty path, exhausting a loop that
  the source cannot exhaust) are modelled with `Option`/fuel, `none`
  standing for a crash or for running out of fuel,
* the numpy random generator (external library code) is modelled as an
  abstract stream of draws passed in as a parameter; seeding replaces the
  ambient stream by a stream that is a function of the seed alone.
-/

namespace SionnaJam

/-- A 3D point: the `[x, y, z]` numpy arrays of the source. -/
abbrev P3 (α : Type) := α × α × α

/-- Default point used for the (never exercised in-range) `List.getD` reads. -/
def default3 : P3 ℝ := (0, 0, 0)

/-- An axis-aligned box obstacle: the `{'min': [...], 'max': [...]}` dicts. -/
structure Obstacle (α : Type) where
  min : P3 α
  max : P3 α

/-- The bounds dict: each axis is optionally constrained to `[lower, upper]`. -/
structure BoundsT (α : Type) where
  x : Option (α × α)
  y : Option (α × α)
  z : Option (α × α)

/-- The world data owned by `MotionEngine.__init__`: bounds plus obstacles. -/
structure World (α : Type) where
  bounds : BoundsT α
  obstacles : List (Obstacle α)

/-- One axis of the bounds check in `MotionEngine.is_position_valid`:
an absent axis is unconstrained, a present axis demands
`lower <= coordinate <= upper`. -/
def inBoundAxis [LinearOrder α] : Option (α × α) → α → Bool
  | none, _ => true
  | some (lo, hi), c => decide (lo ≤ c) && decide (c ≤ hi)

/-- The vectorized AABB membership test of `is_position_valid`:
`position >= min` and `position <= max` on all three axes. -/
def insideObstacle [LinearOrder α] (o : Obstacle α) (p : P3 α) : Bool :=
  decide (o.min.1 ≤ p.1) && decide (p.1 ≤ o.max.1) &&
  decide (o.min.2.1 ≤ p.2.1) && decide (p.2.1 ≤ o.max.2.1) &&
  decide (o.min.2.2 ≤ p.2.2) && decide (p.2.2 ≤ o.max.2.2)

/-- The source method `MotionEngine.is_position_valid` (src/core/engine.py, lines 32-60):
false as soon as a present bound axis is violated or the point lies in the
closed box of some obstacle, true otherwise. -/
def is_position_valid [LinearOrder α] (w : World α) (p : P3 α) : Bool :=
  inBoundAxis w.bounds.x p.1 && inBoundAxis w.bounds.y p.2.1 &&
  inBoundAxis w.bounds.z p.2.2 &&
  w.obstacles.all (fun o => ! insideObstacle o p)

/-- Euclidean distance between two points, the source's `np.linalg.norm(q - p)`. -/
noncomputable def dist3 (p q : P3 ℝ) : ℝ :=
  Real.sqrt ((q.1 - p.1) ^ 2 + (q.2.1 - p.2.1) ^ 2 + (q.2.2 - p.2.2) ^ 2)

/-- The sample points taken by `check_line_of_sight` (src/core/utils.py):
`steps = int(dist / step_size)` samples at
`p1 + direction * (i * step_size)` for `i = 1 .. steps`, where
`direction = (p2 - p1) / dist`. -/
noncomputable def losSamples (p1 p2 : P3 ℝ) (s : ℝ) : List (P3 ℝ) :=
  let d := dist3 p1 p2
  let dir : P3 ℝ := (1 / d) • (p2 - p1)
  (List.range (Int.toNat ⌊d / s⌋)).map (fun i : ℕ => p1 + (((i : ℝ) + 1) * s) • dir)

/-- The source function `check_line_of_sight(engine, p1, p2, step_size)` (src/core/utils.py,
lines 7-26): degenerate distances below `1e-3` pass immediately, otherwise
every sample must satisfy `is_position_valid`. -/
noncomputable def check_line_of_sight (w : World ℝ) (p1 p2 : P3 ℝ) (s : ℝ) : Bool :=
  if dist3 p1 p2 < 1 / 1000 then true
  else (losSamples p1 p2 s).all (fun q => is_position_valid w q)

/-! ### Kinematic math strategy (src/core/strategies.py, MathStrategy) -/

/-- A `MathSegment` dataclass (src/config.py): the params dict is a partial
map from parameter name to value, read with a `0.0` default. -/
structure MathSegment where
  mode : String
  duration : ℝ
  start_pos : P3 ℝ
  start_heading : ℝ
  start_vel : ℝ
  params : String → Option ℝ

instance : Inhabited MathSegment :=
  ⟨⟨"", 0, (0, 0, 0), 0, 0, fun _ => none⟩⟩

/-- The source method `MathStrategy._calculate_position_at_t` (src/core/strategies.py, lines
159-197): closed-form position within one segment at local time `t`. -/
noncomputable def calc_position_at_t (seg : MathSegment) (t : ℝ) : P3 ℝ :=
  let x0 := seg.start_pos.1
  let y0 := seg.start_pos.2.1
  let z0 := seg.start_pos.2.2
  let theta := seg.start_heading
  if seg.mode = "Const Vel" then
    let v := (seg.params "velocity").getD 0
    (x0 + v * Real.cos theta * t, y0 + v * Real.sin theta * t, z0)
  else if seg.mode = "Const Accel" then
    let v0 := seg.start_vel
    let a := (seg.params "accel").getD 0
    let d := v0 * t + 1 / 2 * a * t ^ 2
    (x0 + d * Real.cos theta, y0 + d * Real.sin theta, z0)
  else if seg.mode = "Turn" then
    let v := (seg.params "velocity").getD 0
    let omega := Real.pi / 180 * (seg.params "turn_rate").getD 0
    if |omega| < 1 / 10000 then
      (x0 + v * Real.cos theta * t, y0 + v * Real.sin theta * t, z0)
    else
      let r := v / omega
      (x0 + r * (Real.sin (omega * t + theta) - Real.sin theta),
       y0 - r * (Real.cos (omega * t + theta) - Real.cos theta), z0)
  else (x0, y0, z0)

/-- The grid `np.arange(0, stop, step)` for a positive step: the values `k * step`
with `k * step < stop`, i.e. `ceil(stop / step)` entries. -/
noncomputable def arange (stop step : ℝ) : List ℝ :=
  (List.range (Int.toNat ⌈stop / step⌉)).map (fun k : ℕ => (k : ℝ) * step)

/-- The global time grid of `MathStrategy.generate`: `np.arange` over the
summed duration, with the final time appended when
`t_global[-1] < total - 1e-9` (or the grid is empty). -/
noncomputable def mathTimeGrid (total dt : ℝ) : List ℝ :=
  let t := arange total dt
  match t.getLast? with
  | none => [total]
  | some last => if last < total - 1 / 1000000000 then t ++ [total] else t

/-- The `while` loop of `MathStrategy.generate` advancing the segment cursor
past segments whose cumulative duration has elapsed (epsilon `1e-9`); the
fuel is the segment count, which the source loop can never exceed. -/
noncomputable def advanceCursor (segs : List MathSegment) :
    ℕ → ℕ → ℝ → ℝ → ℕ × ℝ
  | 0, idx, segStart, _ => (idx, segStart)
  | fuel + 1, idx, segStart, t =>
    if idx < segs.length - 1 ∧
        segStart + (segs.getD idx default).duration - 1 / 1000000000 ≤ t then
      advanceCursor segs fuel (idx + 1) (segStart + (segs.getD idx default).duration) t
    else (idx, segStart)

/-- The sampling loop of `MathStrategy.generate`: for each grid time advance
the cursor, clamp the local time to `[0, duration]` and evaluate the
closed-form kinematics. -/
noncomputable def mathSamplePath (segs : List MathSegment) :
    List ℝ → ℕ → ℝ → List (P3 ℝ)
  | [], _, _ => []
  | t :: rest, idx, segStart =>
    let c := advanceCursor segs segs.length idx segStart t
    let seg := segs.getD c.1 default
    let tl0 := t - c.2
    let tl1 := if seg.duration < tl0 then seg.duration else tl0
    let tl := if tl1 < 0 then 0 else tl1
    calc_position_at_t seg tl :: mathSamplePath segs rest c.1 c.2

/-- The source method `MathStrategy.generate` (src/core/strategies.py, lines 100-157), the
path part: fatal on an empty segment list, otherwise sample the global time
grid (the metadata dict is advisory and not modelled). -/
noncomputable def mathGenerate (segs : List MathSegment) (dt : ℝ) :
    Except String (List (P3 ℝ)) :=
  match segs with
  | [] => .error "MathStrategy Error: No segments provided in configuration."
  | _ :: _ =>
    let total := (segs.map (fun s => s.duration)).sum
    .ok (mathSamplePath segs (mathTimeGrid total dt) 0 0)

/-! ### Trajectory store (src/core/engine.py, MotionEngine) -/

/-- One entry of the engine's trajectory store: the `_jammer_paths` value
for an id together with its `_padding_preferences` entry. -/
structure StoreEntry (α : Type) where
  id : String
  path : List (P3 α)
  mode : String

/-- The source method `MotionEngine.get_max_path_length`: `0` on an empty store, otherwise the
maximum stored path length. -/
def get_max_path_length {α : Type} (s : List (StoreEntry α)) : ℕ :=
  (s.map (fun e => e.path.length)).foldr max 0

/-- The body of the `finalize_trajectories` loop for one entry: a path
shorter than the maximum is extended by repeating its last (`pad_end`) or
first (`pad_start`) position; any other mode string leaves it unchanged.
`none` models the `IndexError` the source would raise on `path[-1]` /
`path[0]` for an empty path. -/
def finalizeEntry {α : Type} (maxSteps : ℕ) (e : StoreEntry α) :
    Option (StoreEntry α) :=
  if e.path.length < maxSteps then
    if e.mode = "pad_end" then
      match e.path.getLast? with
      | none => none
      | some lastPos =>
        some ⟨e.id, e.path ++ List.replicate (maxSteps - e.path.length) lastPos, e.mode⟩
    else if e.mode = "pad_start" then
      match e.path.head? with
      | none => none
      | some firstPos =>
        some ⟨e.id, List.replicate (maxSteps - e.path.length) firstPos ++ e.path, e.mode⟩
    else some e
  else some e

/-- The `for jammer_id, path in self._jammer_paths.items():` loop of
`finalize_trajectories`, entry by entry; a `none` from any entry (the
`IndexError` case) aborts the call. -/
def finalizeAll {α : Type} (maxSteps : ℕ) :
    List (StoreEntry α) → Option (List (StoreEntry α))
  | [] => some []
  | e :: rest =>
    match finalizeEntry maxSteps e with
    | none => none
    | some e2 =>
      match finalizeAll maxSteps rest with
      | none => none
      | some rest2 => some (e2 :: rest2)

/-- The source method `MotionEngine.finalize_trajectories` (src/core/engine.py, lines
106-133): pad every stored path up to the current maximum length. -/
def finalize_trajectories {α : Type} (s : List (StoreEntry α)) :
    Option (List (StoreEntry α)) :=
  finalizeAll (get_max_path_length s) s

/-- Archive `MotionEngine.get_all_positions_at_step` (src/archive/
motion_engine.py, lines 144-153): the dict comprehension keeping each
jammer whose path reaches past `step_index`, mapped to that element. -/
def get_all_positions_at_step {β : Type} (store : List (String × List β))
    (k : ℕ) : List (String × β) :=
  store.filterMap (fun e =>
    if h : k < e.2.length then some (e.1, e.2.get ⟨k, h⟩) else none)

/-! ### A* search (src/core/utils.py, a_star_search) -/

/-- The mutable state of the `a_star_search` loop.  `heapq` is modelled as
a plain list from which `popMin` extracts the lexicographically smallest
`(f_score, node_index)` pair; `defaultdict(lambda: float('inf'))` is
modelled as `ℕ → Option ℝ` with `none` standing for infinity. -/
structure AStarState where
  openSet : List (ℝ × ℕ)
  cameFrom : ℕ → Option ℕ
  gScore : ℕ → Option ℝ
  fScore : ℕ → Option ℝ
  visited : List ℕ

/-- Extract a lexicographically minimal `(f_score, node_index)` pair from
the heap, together with the remaining entries (`heapq.heappop`). -/
noncomputable def popMin : List (ℝ × ℕ) → Option ((ℝ × ℕ) × List (ℝ × ℕ))
  | [] => none
  | a :: rest =>
    match popMin rest with
    | none => some (a, [])
    | some (b, rest2) =>
      if a.1 < b.1 ∨ (a.1 = b.1 ∧ a.2 ≤ b.2) then some (a, rest)
      else some (b, a :: rest2)

/-- The body of the neighbor loop of `a_star_search`: relax one neighbor of
the current node, pushing it with its fresh f-score when its g-score
strictly improves (an unset g-score counts as infinity; an unset g-score of
`current` makes the tentative score infinite, so nothing improves). -/
noncomputable def processNeighbor (nodes : List (P3 ℝ)) (endIdx current : ℕ)
    (st : AStarState) (nb : ℕ) : AStarState :=
  let d := dist3 (nodes.getD current default3) (nodes.getD nb default3)
  match st.gScore current with
  | none => st
  | some gc =>
    let tent := gc + d
    let better : Bool :=
      match st.gScore nb with
      | none => true
      | some gn => decide (tent < gn)
    if better then
      let fnew := tent + dist3 (nodes.getD nb default3) (nodes.getD endIdx default3)
      { openSet := st.openSet ++ [(fnew, nb)],
        cameFrom := fun v => if v = nb then some current else st.cameFrom v,
        gScore := fun v => if v = nb then some tent else st.gScore v,
        fScore := fun v => if v = nb then some fnew else st.fScore v,
        visited := st.visited }
    else st

/-- The source helper `_reconstruct_path`, index part (src/core/utils.py, lines 121-127): walk
the `came_from` chain back from `current`; the fuel bounds the chain length
(`none` models the infinite loop a cyclic `came_from` would cause, which an
actual run never builds). -/
def reconIdx : ℕ → (ℕ → Option ℕ) → ℕ → Option (List ℕ)
  | 0, _, _ => none
  | fuel + 1, cf, cur =>
    match cf cur with
    | none => some [cur]
    | some prev =>
      match reconIdx fuel cf prev with
      | none => none
      | some l => some (l ++ [cur])

/-- The source helper `_reconstruct_path`: map the reconstructed index chain to node points. -/
noncomputable def reconstructPath (nodes : List (P3 ℝ)) (cf : ℕ → Option ℕ)
    (cur : ℕ) : Option (List (P3 ℝ)) :=
  (reconIdx (nodes.length + 1) cf cur).map
    (fun l => l.map (fun i => nodes.getD i default3))

/-- The `while open_set:` loop of `a_star_search`: pop a minimal entry,
return the reconstructed path on reaching the target, skip visited nodes,
otherwise mark visited and relax all neighbors.  `some []` is the source's
`return []` on exhausting the open set; `none` means the fuel ran out
before the loop finished. -/
noncomputable def aStarLoop (nodes : List (P3 ℝ)) (adj : ℕ → List ℕ)
    (endIdx : ℕ) : ℕ → AStarState → Option (List (P3 ℝ))
  | 0, _ => none
  | fuel + 1, st =>
    match popMin st.openSet with
    | none => some []
    | some (c, rest) =>
      if c.2 = endIdx then reconstructPath nodes st.cameFrom c.2
      else if c.2 ∈ st.visited then
        aStarLoop nodes adj endIdx fuel { st with openSet := rest }
      else
        let st1 := { st with openSet := rest, visited := c.2 :: st.visited }
        aStarLoop nodes adj endIdx fuel
          ((adj c.2).foldl (processNeighbor nodes endIdx c.2) st1)

/-- The source function `a_star_search(nodes, adjacency, start_idx, end_idx)` (src/core/utils.py,
lines 70-119).  The initial heap holds `(0, start_idx)` and the g/f-scores
of the start node are set; everything else is infinite. -/
noncomputable def a_star_search (fuel : ℕ) (nodes : List (P3 ℝ))
    (adj : ℕ → List ℕ) (startIdx endIdx : ℕ) : Option (List (P3 ℝ)) :=
  aStarLoop nodes adj endIdx fuel
    { openSet := [(0, startIdx)],
      cameFrom := fun _ => none,
      gScore := fun v => if v = startIdx then some 0 else none,
      fScore := fun v =>
        if v = startIdx then
          some (dist3 (nodes.getD startIdx default3) (nodes.getD endIdx default3))
        else none,
      visited := [] }

/-- Directed reachability along the adjacency structure: the node `v` can be
reached from `s` by following neighbor links.  For the undirected graphs the
roadmap builds (symmetric adjacency) this is exactly "same connected
component". -/
def ReachableFrom (adj : ℕ → List ℕ) (s v : ℕ) : Prop :=
  Relation.ReflTransGen (fun a b => b ∈ adj a) s v

/-- Fuel sufficient for any `a_star_search` run on `n` nodes: one iteration
per initial heap entry plus one per possible push (each processed node `u`
pushes at most `(adj u).length` entries and is processed at most once). -/
def aStarFuelBound (adj : ℕ → List ℕ) (n : ℕ) : ℕ :=
  2 + ((List.range n).map (fun u => (adj u).length)).sum

/-- The termination measure of the A* loop: open entries still to pop plus
all pushes that unvisited in-range nodes could still cause. -/
def aStarMeasure (adj : ℕ → List ℕ) (n : ℕ) (st : AStarState) : ℕ :=
  st.openSet.length +
    (((List.range n).filter (fun u => u ∉ st.visited)).map
      (fun u => (adj u).length)).sum

/-! ### Random walk strategy (src/core/strategies.py, RandomWalkStrategy) -/

/-- The dataclass `RandomWalkConfig` (src/config.py, lines 24-32). -/
structure RandomWalkConfig where
  time_step : ℝ
  starting_position : P3 ℝ
  num_steps : ℕ
  step_size : ℝ
  max_retries : ℕ
  random_seed : Option ℤ

/-- The metadata dict returned by `RandomWalkStrategy.generate`. -/
structure RWMeta where
  strategy : String
  total_distance : ℝ
  avg_velocity : ℝ
  duration : ℝ

/-- Normalize a 2D draw as the source does: divide by the norm when it is
positive, otherwise keep the raw draw. -/
noncomputable def rwDirection (d : ℝ × ℝ) : ℝ × ℝ :=
  let n := Real.sqrt (d.1 ^ 2 + d.2 ^ 2)
  if 0 < n then (d.1 / n, d.2 / n) else d

/-- The retry loop of one random-walk step: up to `max_retries` candidates
`prev + step_size * (dir.x, dir.y, 0)` with the z coordinate overwritten by
the starting height; the first valid candidate wins, exhaustion stays in
place.  Returns the chosen point and the next unread stream index. -/
noncomputable def rwTry (w : World ℝ) (stream : ℕ → ℝ × ℝ)
    (stepSize zH : ℝ) (prev : P3 ℝ) : ℕ → ℕ → P3 ℝ × ℕ
  | 0, n => (prev, n)
  | r + 1, n =>
    let dir := rwDirection (stream n)
    let cand : P3 ℝ := (prev.1 + dir.1 * stepSize, prev.2.1 + dir.2 * stepSize, zH)
    if is_position_valid w cand then (cand, n + 1)
    else rwTry w stream stepSize zH prev r (n + 1)

/-- The outer step loop of `RandomWalkStrategy.generate`: the positions at
steps `1 .. num_steps - 1`, produced left to right. -/
noncomputable def rwPath (w : World ℝ) (stream : ℕ → ℝ × ℝ)
    (stepSize zH : ℝ) (retries : ℕ) : ℕ → ℕ → P3 ℝ → List (P3 ℝ)
  | 0, _, _ => []
  | k + 1, n, prev =>
    let r := rwTry w stream stepSize zH prev retries n
    r.1 :: rwPath w stream stepSize zH retries k r.2 r.1

/-- The consecutive-distance list `np.linalg.norm(np.diff(path), axis=1)`. -/
noncomputable def pairwiseDists : List (P3 ℝ) → List ℝ
  | a :: b :: rest => dist3 a b :: pairwiseDists (b :: rest)
  | _ => []

/-- The source method `RandomWalkStrategy.generate` (src/core/strategies.py, lines 36-86).
The numpy global generator is modelled as the ambient draw stream
`globalStream`; `np.random.seed(s)` replaces it by `seedStream s`, a stream
that is a function of the seed alone (`seedStream` abstracts the external
numpy PRNG, which is not part of this repository).  `none` models the
`IndexError` the source raises on `path[0] = ...` when `num_steps == 0`. -/
noncomputable def rwGenerate (seedStream : ℤ → ℕ → ℝ × ℝ)
    (globalStream : ℕ → ℝ × ℝ) (w : World ℝ) (cfg : RandomWalkConfig) :
    Option (List (P3 ℝ) × RWMeta) :=
  if cfg.num_steps = 0 then none
  else
    let stream := match cfg.random_seed with
      | some s => seedStream s
      | none => globalStream
    let start := cfg.starting_position
    let path := start ::
      rwPath w stream cfg.step_size start.2.2 cfg.max_retries (cfg.num_steps - 1) 0 start
    some (path,
      ⟨"RandomWalk", (pairwiseDists path).sum,
        cfg.step_size / cfg.time_step, (cfg.num_steps : ℝ) * cfg.time_step⟩)

/-! ### Graph navigation strategy (src/core/strategies.py, GraphNavStrategy) -/

/-- The `GraphNavConfig` fields `GraphNavStrategy.generate` reads.  The
instance cache after lazy loading is the `precomputed` pair. -/
structure GNConfig where
  time_step : ℝ
  min_path_distance : ℝ
  enable_smoothing : Bool
  velocity : ℝ
  precomputed : Option (List (P3 ℝ) × (ℕ → List ℕ))

/-- Cumulative chord length `np.insert(np.cumsum(dists), 0, 0.0)`. -/
noncomputable def cumdist : List (P3 ℝ) → List ℝ
  | [] => [0]
  | [_] => [0]
  | a :: b :: rest => 0 :: (cumdist (b :: rest)).map (fun c => dist3 a b + c)

/-- Linear interpolation `np.interp(x, xp, fp)` over zipped `(xp, fp)` pairs with `xp`
nondecreasing: clamp outside the range, interpolate linearly inside. -/
noncomputable def interpPairs (x : ℝ) : List (ℝ × ℝ) → ℝ
  | [] => 0
  | [(_, y0)] => y0
  | (x0, y0) :: (x1, y1) :: rest =>
    if x ≤ x0 then y0
    else if x ≤ x1 then y0 + (y1 - y0) * (x - x0) / (x1 - x0)
    else interpPairs x ((x1, y1) :: rest)

/-- The time-parameterization tail of `GraphNavStrategy.generate` (lines
358-385): map a uniform time grid (final time appended when missing) to
target distances and interpolate each coordinate along the chord-length
table. -/
noncomputable def gnReparam (velocity dt : ℝ) (path : List (P3 ℝ)) :
    List (P3 ℝ) :=
  let cd := cumdist path
  let total := cd.getLastD 0
  let dur := total / velocity
  let t0 := arange dur dt
  let tEval := match t0.getLast? with
    | none => [dur]
    | some last => if last < dur then t0 ++ [dur] else t0
  tEval.map (fun t =>
    let td := t * velocity
    (interpPairs td (cd.zip (path.map (fun p => p.1))),
     interpPairs td (cd.zip (path.map (fun p => p.2.1))),
     interpPairs td (cd.zip (path.map (fun p => p.2.2)))))

/-- One iteration of the GraphNav search loop (lines 304-353): skip when the
two sampled indices coincide, run A*, skip empty results, skip paths shorter
than `min_path_distance`, and with smoothing enabled accept only a smoothed
path every sample of which is valid (no fallback to the raw chain).
`smooth` abstracts `calculate_smooth_path`, whose spline fit lives in the
external scipy library. -/
noncomputable def gnAttempt (w : World ℝ)
    (smooth : List (P3 ℝ) → List (P3 ℝ)) (fuel : ℕ) (nodes : List (P3 ℝ))
    (adj : ℕ → List ℕ) (minDist : ℝ) (smoothing : Bool) (pair : ℕ × ℕ) :
    Option (List (P3 ℝ)) :=
  if pair.1 = pair.2 then none
  else
    match a_star_search fuel nodes adj pair.1 pair.2 with
    | none => none
    | some [] => none
    | some (q :: raw) =>
      if (pairwiseDists (q :: raw)).sum < minDist then none
      else if smoothing then
        let sm := smooth (q :: raw)
        if sm.all (fun p => is_position_valid w p) then some sm else none
      else some (q :: raw)

/-- The `while attempts < max_attempts:` loop: try the pseudo-random index
pairs `stream i` in order until one attempt yields a path or the budget runs
out (`none`). -/
noncomputable def gnLoop (w : World ℝ) (smooth : List (P3 ℝ) → List (P3 ℝ))
    (fuel : ℕ) (nodes : List (P3 ℝ)) (adj : ℕ → List ℕ) (minDist : ℝ)
    (smoothing : Bool) (stream : ℕ → ℕ × ℕ) : ℕ → ℕ → Option (List (P3 ℝ))
  | 0, _ => none
  | remaining + 1, i =>
    match gnAttempt w smooth fuel nodes adj minDist smoothing (stream i) with
    | some p => some p
    | none => gnLoop w smooth fuel nodes adj minDist smoothing stream remaining (i + 1)

/-- The source method `GraphNavStrategy.generate` (src/core/strategies.py, lines 284-397):
fatal when no graph is loaded, fatal when the loaded graph has fewer than
two nodes, otherwise 100 budgeted attempts followed by the fatal
no-valid-path error or the time-parameterized accepted path.  The random
start/end draws are the ambient stream `stream`; the metadata dict is
advisory and not modelled. -/
noncomputable def gnGenerate (w : World ℝ)
    (smooth : List (P3 ℝ) → List (P3 ℝ)) (fuel : ℕ) (cfg : GNConfig)
    (stream : ℕ → ℕ × ℕ) : Except String (List (P3 ℝ)) :=
  match cfg.precomputed with
  | none => .error "GraphNav Error: Graph not built. Please run the GUI to build the graph first."
  | some (nodes, adj) =>
    if nodes.length < 2 then .error "Graph is too small (less than 2 nodes)."
    else
      match gnLoop w smooth fuel nodes adj cfg.min_path_distance
          cfg.enable_smoothing stream 100 0 with
      | none => .error "GraphNav Error: Failed to find a valid path after maximum attempts."
      | some p => .ok (gnReparam cfg.velocity cfg.time_step p)

/-- The three-node chain graph of the A* test scenario: nodes A, B, C on a
line with edges A-B and B-C only. -/
def nodes3 : List (P3 ℝ) := [(0, 0, 0), (1, 0, 0), (2, 0, 0)]

/-- Adjacency of the chain graph: undirected edges A-B and B-C. -/
def adj3 : ℕ → List ℕ := fun i =>
  if i = 0 then [1] else if i = 1 then [0, 2] else if i = 2 then [1] else []

/-- The end-to-end scenario world: bounds `x,y ∈ [-100, 100]` and the single
obstacle `[-10, 10]^3`. -/
def W3 : World ℝ :=
  ⟨⟨some (-100, 100), some (-100, 100), none⟩,
    [⟨(-10, -10, -10), (10, 10, 10)⟩]⟩

/-- The single constant-velocity segment of the end-to-end scenario:
heading 0 rad, velocity 5, duration 4, starting at `(-20, 0, 0)`. -/
noncomputable def c3seg : MathSegment :=
  ⟨"Const Vel", 4, (-20, 0, 0), 0, 5,
    fun k => if k = "velocity" then some 5 else none⟩

/-- A concrete two-entity store: "a" has one point and prefers `pad_end`,
"b" has two points and prefers `pad_start`. -/
def c4s : List (StoreEntry ℚ) :=
  [⟨"a", [(0, 0, 0)], "pad_end"⟩, ⟨"b", [(1, 1, 1), (2, 2, 2)], "pad_start"⟩]
/-- The store `c4s` after finalization: "a" padded to length 2. -/
def c4s2 : List (StoreEntry ℚ) :=
  [⟨"a", [(0, 0, 0), (0, 0, 0)], "pad_end"⟩,
    ⟨"b", [(1, 1, 1), (2, 2, 2)], "pad_start"⟩]
/-- A concrete single-entity store for the idempotence witness. -/
def c5s : List (StoreEntry ℚ) := [⟨"u", [(1, 2, 3)], "pad_end"⟩]
/-- The unconstrained, obstacle-free world. -/
def Wtriv : World ℝ := ⟨⟨none, none, none⟩, []⟩
/-- A seeded one-step random-walk configuration. -/
def c9cfg : RandomWalkConfig := ⟨1, (0, 0, 0), 1, 1, 1, some 7⟩
/-- An unseeded single-step random-walk configuration. -/
def c10cfg : RandomWalkConfig := ⟨1, (0, 0, 0), 1, 1, 1, none⟩
/-- A world whose single obstacle straddles the middle of the unit segment
on the x-axis. -/
noncomputable def c2w : World ℝ :=
  ⟨⟨none, none, none⟩, [⟨(3 / 10, -1, -1), (7 / 10, 1, 1)⟩]⟩
/-- A loaded two-node graph with no edges and a degenerate index stream
(always the same node twice). -/
noncomputable def c7cfg : GNConfig :=
  ⟨1, 5, false, 1, some ([(0, 0, 0), (1, 0, 0)], fun _ => [])⟩

/-! ## Theorems -/

lemma inBoundAxis_iff {α : Type} [LinearOrder α] (b : Option (α × α)) (c : α) :
    inBoundAxis b c = true ↔ ∀ lo hi, b = some (lo, hi) → lo ≤ c ∧ c ≤ hi := by
  cases b with
  | none => simp [inBoundAxis]
  | some p =>
    cases p with
    | mk lo hi => simp [inBoundAxis]

lemma insideObstacle_iff {α : Type} [LinearOrder α] (o : Obstacle α) (p : P3 α) :
    insideObstacle o p = true ↔
      (o.min.1 ≤ p.1 ∧ p.1 ≤ o.max.1 ∧ o.min.2.1 ≤ p.2.1 ∧ p.2.1 ≤ o.max.2.1 ∧
        o.min.2.2 ≤ p.2.2 ∧ p.2.2 ≤ o.max.2.2) := by
  simp [insideObstacle, and_assoc]

/-- Claim C1: `is_position_valid` returns true exactly when every present
bound axis contains the corresponding coordinate and the point avoids the
closed box `[min, max]` of every obstacle; hence it returns false whenever a
present bound is violated or the point lies in some closed box (boundary
included), and true for every point strictly outside all obstacles and
within all present bounds.  The embedding is a pure function, so the call
has no side effects. -/
theorem c1_is_position_valid_characterization (w : World ℝ) (p : P3 ℝ) :
    is_position_valid w p = true ↔
      ((∀ lo hi, w.bounds.x = some (lo, hi) → lo ≤ p.1 ∧ p.1 ≤ hi) ∧
        (∀ lo hi, w.bounds.y = some (lo, hi) → lo ≤ p.2.1 ∧ p.2.1 ≤ hi) ∧
        (∀ lo hi, w.bounds.z = some (lo, hi) → lo ≤ p.2.2 ∧ p.2.2 ≤ hi)) ∧
      ∀ o ∈ w.obstacles,
        ¬ (o.min.1 ≤ p.1 ∧ p.1 ≤ o.max.1 ∧ o.min.2.1 ≤ p.2.1 ∧
            p.2.1 ≤ o.max.2.1 ∧ o.min.2.2 ≤ p.2.2 ∧ p.2.2 ≤ o.max.2.2) := by
  simp only [is_position_valid, Bool.and_eq_true, List.all_eq_true,
    Bool.not_eq_true', and_assoc]
  constructor
  · rintro ⟨hx, hy, hz, hobs⟩
    refine ⟨(inBoundAxis_iff _ _).mp hx, (inBoundAxis_iff _ _).mp hy,
      (inBoundAxis_iff _ _).mp hz, ?_⟩
    intro o ho hmem
    have := hobs o ho
    rw [← insideObstacle_iff o p] at hmem
    simp [hmem] at this
  · rintro ⟨hx, hy, hz, hobs⟩
    refine ⟨(inBoundAxis_iff _ _).mpr hx, (inBoundAxis_iff _ _).mpr hy,
      (inBoundAxis_iff _ _).mpr hz, ?_⟩
    intro o ho
    have := hobs o ho
    rw [← insideObstacle_iff o p] at this
    simpa using this

/-- Claim C8: `get_all_positions_at_step k` contains exactly the entities
whose stored path has at least `k + 1` elements, each mapped to element `k`
of its path; shorter paths are omitted, never padded. -/
theorem c8_positions_at_step_characterization {β : Type}
    (store : List (String × List β)) (k : ℕ) (jid : String) (q : β) :
    (jid, q) ∈ get_all_positions_at_step store k ↔
      ∃ path, (jid, path) ∈ store ∧
        ∃ hk : k < path.length, path.get ⟨k, hk⟩ = q := by
  simp only [get_all_positions_at_step, List.mem_filterMap]
  constructor
  · rintro ⟨⟨jid2, path⟩, hmem, hsome⟩
    by_cases hk : k < path.length
    · simp only [dif_pos hk, Option.some.injEq, Prod.mk.injEq] at hsome
      obtain ⟨h1, h2⟩ := hsome
      subst h1
      exact ⟨path, hmem, hk, by simpa using h2⟩
    · simp [dif_neg hk] at hsome
  · rintro ⟨path, hmem, hk, hget⟩
    refine ⟨(jid, path), hmem, ?_⟩
    simp only [dif_pos hk, Option.some.injEq, Prod.mk.injEq]
    exact ⟨trivial, by simpa using hget⟩

lemma length_le_get_max {α : Type} (s : List (StoreEntry α)) :
    ∀ e ∈ s, e.path.length ≤ get_max_path_length s := by
  induction s with
  | nil => intro e he; cases he
  | cons a s ih =>
    intro e he
    simp only [get_max_path_length, List.map_cons, List.foldr_cons]
    rcases List.mem_cons.mp he with he | he
    · subst he; exact le_max_left _ _
    · exact le_trans (ih e he) (le_max_right _ _)

lemma forall2_mem_right {α β : Type} {R : α → β → Prop} :
    ∀ {l1 : List α} {l2 : List β}, List.Forall₂ R l1 l2 →
      ∀ b ∈ l2, ∃ a ∈ l1, R a b := by
  intro l1 l2 h
  induction h with
  | nil => intro b hb; cases hb
  | @cons a b l1 l2 hab _ ih =>
    intro c hc
    rcases List.mem_cons.mp hc with hc | hc
    · exact ⟨a, by simp, hc ▸ hab⟩
    · obtain ⟨a2, ha2, hr⟩ := ih c hc
      exact ⟨a2, by simp [ha2], hr⟩

lemma forall2_mem_left {α β : Type} {R : α → β → Prop} :
    ∀ {l1 : List α} {l2 : List β}, List.Forall₂ R l1 l2 →
      ∀ a ∈ l1, ∃ b ∈ l2, R a b := by
  intro l1 l2 h
  induction h with
  | nil => intro a ha; cases ha
  | @cons a b l1 l2 hab _ ih =>
    intro c hc
    rcases List.mem_cons.mp hc with hc | hc
    · exact ⟨b, by simp, hc ▸ hab⟩
    · obtain ⟨b2, hb2, hr⟩ := ih c hc
      exact ⟨b2, by simp [hb2], hr⟩

lemma get_max_mem {α : Type} (s : List (StoreEntry α)) (hne : s ≠ []) :
    ∃ e ∈ s, e.path.length = get_max_path_length s := by
  induction s with
  | nil => cases hne rfl
  | cons a s ih =>
    by_cases hs : s = []
    · subst hs
      exact ⟨a, by simp, by simp [get_max_path_length]⟩
    · obtain ⟨e, he, hlen⟩ := ih hs
      rcases le_total (get_max_path_length s) a.path.length with h | h
      · refine ⟨a, by simp, ?_⟩
        simp only [get_max_path_length, List.map_cons, List.foldr_cons]
        have : (s.map (fun e => e.path.length)).foldr max 0 = get_max_path_length s := rfl
        omega
      · refine ⟨e, by simp [he], ?_⟩
        simp only [get_max_path_length, List.map_cons, List.foldr_cons]
        have : (s.map (fun e => e.path.length)).foldr max 0 = get_max_path_length s := rfl
        omega

lemma finalizeEntry_shape {α : Type} [Inhabited α] (m : ℕ) (e e2 : StoreEntry α)
    (hfe : finalizeEntry m e = some e2) :
    e2.id = e.id ∧ e2.mode = e.mode ∧
    (e.mode = "pad_end" →
      e2.path = e.path ++
        List.replicate (m - e.path.length) ((e.path.getLast?).getD default)) ∧
    (e.mode = "pad_start" →
      e2.path = List.replicate (m - e.path.length) ((e.path.head?).getD default) ++
        e.path) ∧
    (e.mode ≠ "pad_end" → e.mode ≠ "pad_start" → e2 = e) := by
  by_cases hlt : e.path.length < m
  · by_cases hm1 : e.mode = "pad_end"
    · cases hl : e.path.getLast? with
      | none => simp [finalizeEntry, hlt, hm1, hl] at hfe
      | some lastPos =>
        simp only [finalizeEntry, if_pos hlt, if_pos hm1, hl] at hfe
        cases hfe
        simp [hm1, hl]
    · by_cases hm2 : e.mode = "pad_start"
      · cases hl : e.path.head? with
        | none => simp [finalizeEntry, hlt, hm1, hm2, hl] at hfe
        | some firstPos =>
          simp only [finalizeEntry, if_pos hlt, if_neg hm1, if_pos hm2, hl] at hfe
          cases hfe
          simp [hm1, hm2, hl]
      · simp only [finalizeEntry, if_pos hlt, if_neg hm1, if_neg hm2,
          Option.some.injEq] at hfe
        subst hfe
        simp [hm1, hm2]
  · simp only [finalizeEntry, if_neg hlt, Option.some.injEq] at hfe
    subst hfe
    have hm : m - e.path.length = 0 := by omega
    simp [hm]

lemma finalizeEntry_len {α : Type} (m : ℕ) (e e2 : StoreEntry α)
    (hfe : finalizeEntry m e = some e2) :
    e.path.length ≤ e2.path.length ∧
    (e.path.length ≤ m → e2.path.length ≤ m) ∧
    (m ≤ e.path.length → e2 = e) ∧
    ((e.mode = "pad_end" ∨ e.mode = "pad_start") → e.path.length ≤ m →
      e2.path.length = m) := by
  by_cases hlt : e.path.length < m
  · by_cases hm1 : e.mode = "pad_end"
    · cases hl : e.path.getLast? with
      | none => simp [finalizeEntry, hlt, hm1, hl] at hfe
      | some lastPos =>
        simp only [finalizeEntry, if_pos hlt, if_pos hm1, hl] at hfe
        cases hfe
        simp only [List.length_append, List.length_replicate]
        omega
    · by_cases hm2 : e.mode = "pad_start"
      · cases hl : e.path.head? with
        | none => simp [finalizeEntry, hlt, hm1, hm2, hl] at hfe
        | some firstPos =>
          simp only [finalizeEntry, if_pos hlt, if_neg hm1, if_pos hm2, hl] at hfe
          cases hfe
          simp only [List.length_append, List.length_replicate]
          omega
      · simp only [finalizeEntry, if_pos hlt, if_neg hm1, if_neg hm2,
          Option.some.injEq] at hfe
        subst hfe
        refine ⟨le_rfl, fun h => h, fun h => rfl, fun hm _ => ?_⟩
        rcases hm with hm | hm
        · exact absurd hm hm1
        · exact absurd hm hm2
  · simp only [finalizeEntry, if_neg hlt, Option.some.injEq] at hfe
    subst hfe
    exact ⟨le_rfl, fun h => h, fun _ => rfl, fun _ _ => by omega⟩

lemma finalizeEntry_idem {α : Type} (m : ℕ) (e e2 : StoreEntry α)
    (hfe : finalizeEntry m e = some e2) :
    finalizeEntry m e2 = some e2 := by
  by_cases hlt : e.path.length < m
  · by_cases hm1 : e.mode = "pad_end"
    · cases hl : e.path.getLast? with
      | none => simp [finalizeEntry, hlt, hm1, hl] at hfe
      | some lastPos =>
        simp only [finalizeEntry, if_pos hlt, if_pos hm1, hl] at hfe
        cases hfe
        have : ¬ (e.path ++ List.replicate (m - e.path.length) lastPos).length < m := by
          simp only [List.length_append, List.length_replicate]
          omega
        show finalizeEntry m ⟨e.id, e.path ++ List.replicate (m - e.path.length) lastPos, e.mode⟩ = _
        rw [finalizeEntry, if_neg this]
    · by_cases hm2 : e.mode = "pad_start"
      · cases hl : e.path.head? with
        | none => simp [finalizeEntry, hlt, hm1, hm2, hl] at hfe
        | some firstPos =>
          simp only [finalizeEntry, if_pos hlt, if_neg hm1, if_pos hm2, hl] at hfe
          cases hfe
          have : ¬ (List.replicate (m - e.path.length) firstPos ++ e.path).length < m := by
            simp only [List.length_append, List.length_replicate]
            omega
          show finalizeEntry m ⟨e.id, List.replicate (m - e.path.length) firstPos ++ e.path, e.mode⟩ = _
          rw [finalizeEntry, if_neg this]
      · simp only [finalizeEntry, if_pos hlt, if_neg hm1, if_neg hm2,
          Option.some.injEq] at hfe
        subst hfe
        simp [finalizeEntry, hlt, hm1, hm2]
  · simp only [finalizeEntry, if_neg hlt, Option.some.injEq] at hfe
    subst hfe
    simp [finalizeEntry, hlt]

lemma finalizeAll_forall2 {α : Type} (m : ℕ) :
    ∀ s s2 : List (StoreEntry α), finalizeAll m s = some s2 →
      List.Forall₂ (fun e e2 => finalizeEntry m e = some e2) s s2 := by
  intro s
  induction s with
  | nil =>
    intro s2 h
    simp only [finalizeAll, Option.some.injEq] at h
    subst h
    exact List.Forall₂.nil
  | cons e rest ih =>
    intro s2 h
    simp only [finalizeAll] at h
    cases hfe : finalizeEntry m e with
    | none => rw [hfe] at h; cases h
    | some e2 =>
      rw [hfe] at h
      cases hrest : finalizeAll m rest with
      | none => rw [hrest] at h; cases h
      | some rest2 =>
        rw [hrest] at h
        cases h
        exact List.Forall₂.cons hfe (ih rest2 hrest)

lemma forall2_finalizeAll {α : Type} (m : ℕ) :
    ∀ s s2 : List (StoreEntry α),
      List.Forall₂ (fun e e2 => finalizeEntry m e = some e2) s s2 →
      finalizeAll m s = some s2 := by
  intro s s2 h
  induction h with
  | nil => rfl
  | cons hfe _ ih =>
    simp only [finalizeAll]
    rw [hfe, ih]

lemma c4_aux {α : Type} [Inhabited α] (M : ℕ) :
    ∀ s s2 : List (StoreEntry α),
      List.Forall₂ (fun e e2 => finalizeEntry M e = some e2) s s2 →
      (∀ e ∈ s, e.mode = "pad_end" ∨ e.mode = "pad_start") →
      (∀ e ∈ s, e.path.length ≤ M) →
      List.Forall₂ (fun e e2 : StoreEntry α =>
        e2.id = e.id ∧
        e2.path.length = M ∧
        e.path.length ≤ e2.path.length ∧
        (e.mode = "pad_end" →
          e2.path = e.path ++ List.replicate (M - e.path.length)
            ((e.path.getLast?).getD default)) ∧
        (e.mode = "pad_start" →
          e2.path = List.replicate (M - e.path.length)
            ((e.path.head?).getD default) ++ e.path)) s s2 := by
  intro s s2 hf2
  induction hf2 with
  | nil => intro _ _; exact List.Forall₂.nil
  | @cons e e2 rest rest2 hfe _ ih =>
    intro hmode hle
    have hmem : e ∈ e :: rest := by simp
    have hsh := finalizeEntry_shape _ e e2 hfe
    have hln := finalizeEntry_len _ e e2 hfe
    refine List.Forall₂.cons ⟨hsh.1, ?_, hln.1, hsh.2.2.1, hsh.2.2.2.1⟩ ?_
    · exact hln.2.2.2 (hmode e hmem) (hle e hmem)
    · exact ih (fun a ha => hmode a (by simp [ha]))
        (fun a ha => hle a (by simp [ha]))

/-- Claim C4: when every stored entity's padding preference is `pad_end` or
`pad_start`, a completed `finalize_trajectories` leaves every stored path
with length exactly `get_max_path_length` (the maximum at call time), never
shortens a path, and the padding repeats the last position under `pad_end`
and the first position under `pad_start`. -/
theorem c4_finalize_pads_to_max {α : Type} [Inhabited α]
    (s s2 : List (StoreEntry α))
    (hmode : ∀ e ∈ s, e.mode = "pad_end" ∨ e.mode = "pad_start")
    (hfin : finalize_trajectories s = some s2) :
    List.Forall₂ (fun e e2 : StoreEntry α =>
      e2.id = e.id ∧
      e2.path.length = get_max_path_length s ∧
      e.path.length ≤ e2.path.length ∧
      (e.mode = "pad_end" →
        e2.path = e.path ++ List.replicate (get_max_path_length s - e.path.length)
          ((e.path.getLast?).getD default)) ∧
      (e.mode = "pad_start" →
        e2.path = List.replicate (get_max_path_length s - e.path.length)
          ((e.path.head?).getD default) ++ e.path)) s s2 := by
  have hf2 := finalizeAll_forall2 (get_max_path_length s) s s2 hfin
  have hle := length_le_get_max s
  exact c4_aux (get_max_path_length s) s s2 hf2 hmode hle

/-- Claim C5: `finalize_trajectories` is idempotent — after a completed
call, running it again returns exactly the same stored paths — and no call
ever truncates a stored path. -/
theorem c5_finalize_idempotent {α : Type} (s s2 : List (StoreEntry α))
    (hfin : finalize_trajectories s = some s2) :
    finalize_trajectories s2 = some s2 ∧
    List.Forall₂ (fun e e2 : StoreEntry α =>
      e.path.length ≤ e2.path.length) s s2 := by
  have hf2 := finalizeAll_forall2 (get_max_path_length s) s s2 hfin
  have hmono : List.Forall₂
      (fun e e2 : StoreEntry α => e.path.length ≤ e2.path.length) s s2 :=
    List.Forall₂.imp (fun a b hfe => (finalizeEntry_len _ _ _ hfe).1) hf2
  refine ⟨?_, hmono⟩
  by_cases hs : s = []
  · subst hs
    cases hf2
    exact hfin
  · -- the maximum is preserved by the first call
    have hle := length_le_get_max s
    have hmax2 : get_max_path_length s2 = get_max_path_length s := by
      apply le_antisymm
      · -- every new path is still bounded by the old maximum
        have hbound : ∀ e2 ∈ s2, e2.path.length ≤ get_max_path_length s := by
          intro e2 he2
          obtain ⟨e, he, hfe⟩ := forall2_mem_right hf2 e2 he2
          exact (finalizeEntry_len _ _ _ hfe).2.1 (hle e he)
        by_cases hs2 : s2 = []
        · subst hs2
          simp [get_max_path_length]
        · obtain ⟨e2, he2, hlen⟩ := get_max_mem s2 hs2
          rw [← hlen]
          exact hbound e2 he2
      · -- the old maximum is attained by some new path
        obtain ⟨e, he, hlen⟩ := get_max_mem s hs
        obtain ⟨e2, he2, hfe⟩ := forall2_mem_left hf2 e he
        have heq : e2 = e := (finalizeEntry_len _ _ _ hfe).2.2.1 (le_of_eq hlen.symm)
        rw [← hlen, show e.path.length = e2.path.length from by rw [heq]]
        exact length_le_get_max s2 e2 he2
    unfold finalize_trajectories
    rw [hmax2]
    apply forall2_finalizeAll
    have : List.Forall₂
        (fun e2 e3 : StoreEntry α =>
          finalizeEntry (get_max_path_length s) e2 = some e3) s2 s2 := by
      apply List.forall₂_same.mpr
      intro e2 he2
      obtain ⟨e, he, hfe⟩ := forall2_mem_right hf2 e2 he2
      exact finalizeEntry_idem _ e e2 hfe
    exact this

theorem c4_finalize_pads_to_max_witness :
    (∀ e ∈ c4s, e.mode = "pad_end" ∨ e.mode = "pad_start") ∧
    finalize_trajectories c4s = some c4s2 ∧
    List.Forall₂ (fun e e2 : StoreEntry ℚ =>
      e2.id = e.id ∧
      e2.path.length = get_max_path_length c4s ∧
      e.path.length ≤ e2.path.length ∧
      (e.mode = "pad_end" →
        e2.path = e.path ++ List.replicate (get_max_path_length c4s - e.path.length)
          ((e.path.getLast?).getD default)) ∧
      (e.mode = "pad_start" →
        e2.path = List.replicate (get_max_path_length c4s - e.path.length)
          ((e.path.head?).getD default) ++ e.path)) c4s c4s2 :=
  ⟨by decide, rfl, c4_finalize_pads_to_max c4s c4s2 (by decide) rfl⟩

theorem c5_finalize_idempotent_witness :
    finalize_trajectories c5s = some c5s ∧
    (finalize_trajectories c5s = some c5s ∧
      List.Forall₂ (fun e e2 : StoreEntry ℚ =>
        e.path.length ≤ e2.path.length) c5s c5s) :=
  ⟨rfl, c5_finalize_idempotent c5s c5s rfl⟩

/-- Claim C9: with an explicit seed, `RandomWalkStrategy.generate` is
deterministic — the ambient (global numpy) stream is irrelevant, so two
invocations with the same engine and config return identical paths and
metadata. -/
theorem c9_randomwalk_seed_deterministic (seedStream : ℤ → ℕ → ℝ × ℝ)
    (g1 g2 : ℕ → ℝ × ℝ) (w : World ℝ) (cfg : RandomWalkConfig) (s : ℤ)
    (hseed : cfg.random_seed = some s) :
    rwGenerate seedStream g1 w cfg = rwGenerate seedStream g2 w cfg := by
  unfold rwGenerate
  rw [hseed]

theorem c9_randomwalk_seed_deterministic_witness :
    c9cfg.random_seed = some 7 ∧
    rwGenerate (fun _ _ => (0, 0)) (fun _ => (1, 1)) Wtriv c9cfg =
      rwGenerate (fun _ _ => (0, 0)) (fun _ => (2, 2)) Wtriv c9cfg :=
  ⟨rfl, c9_randomwalk_seed_deterministic (fun _ _ => (0, 0)) (fun _ => (1, 1))
    (fun _ => (2, 2)) Wtriv c9cfg 7 rfl⟩

lemma rwTry_z (w : World ℝ) (stream : ℕ → ℝ × ℝ) (stepSize zH : ℝ) :
    ∀ (r n : ℕ) (prev : P3 ℝ), prev.2.2 = zH →
      ((rwTry w stream stepSize zH prev r n).1).2.2 = zH := by
  intro r
  induction r with
  | zero => intro n prev hz; exact hz
  | succ r ih =>
    intro n prev hz
    simp only [rwTry]
    by_cases hv : is_position_valid w
        (prev.1 + (rwDirection (stream n)).1 * stepSize,
          prev.2.1 + (rwDirection (stream n)).2 * stepSize, zH) = true
    · rw [if_pos hv]
    · rw [if_neg hv]
      exact ih (n + 1) prev hz

lemma rwTry_valid_or_stay (w : World ℝ) (stream : ℕ → ℝ × ℝ)
    (stepSize zH : ℝ) :
    ∀ (r n : ℕ) (prev : P3 ℝ),
      is_position_valid w ((rwTry w stream stepSize zH prev r n).1) = true ∨
        (rwTry w stream stepSize zH prev r n).1 = prev := by
  intro r
  induction r with
  | zero => intro n prev; exact Or.inr rfl
  | succ r ih =>
    intro n prev
    simp only [rwTry]
    by_cases hv : is_position_valid w
        (prev.1 + (rwDirection (stream n)).1 * stepSize,
          prev.2.1 + (rwDirection (stream n)).2 * stepSize, zH) = true
    · rw [if_pos hv]
      exact Or.inl hv
    · rw [if_neg hv]
      exact ih (n + 1) prev

lemma rwPath_length (w : World ℝ) (stream : ℕ → ℝ × ℝ)
    (stepSize zH : ℝ) (retries : ℕ) :
    ∀ (k n : ℕ) (prev : P3 ℝ),
      (rwPath w stream stepSize zH retries k n prev).length = k := by
  intro k
  induction k with
  | zero => intro n prev; rfl
  | succ k ih =>
    intro n prev
    simp only [rwPath, List.length_cons]
    rw [ih]

lemma rwPath_z (w : World ℝ) (stream : ℕ → ℝ × ℝ)
    (stepSize zH : ℝ) (retries : ℕ) :
    ∀ (k n : ℕ) (prev : P3 ℝ), prev.2.2 = zH →
      ∀ q ∈ rwPath w stream stepSize zH retries k n prev, q.2.2 = zH := by
  intro k
  induction k with
  | zero => intro n prev _ q hq; cases hq
  | succ k ih =>
    intro n prev hz q hq
    simp only [rwPath, List.mem_cons] at hq
    rcases hq with hq | hq
    · subst hq; exact rwTry_z w stream stepSize zH retries n prev hz
    · exact ih _ _ (rwTry_z w stream stepSize zH retries n prev hz) q hq

lemma rwPath_chain (w : World ℝ) (stream : ℕ → ℝ × ℝ)
    (stepSize zH : ℝ) (retries : ℕ) :
    ∀ (k n : ℕ) (prev : P3 ℝ),
      List.Chain (fun a b => is_position_valid w b = true ∨ b = a) prev
        (rwPath w stream stepSize zH retries k n prev) := by
  intro k
  induction k with
  | zero => intro n prev; exact List.Chain.nil
  | succ k ih =>
    intro n prev
    exact List.Chain.cons
      (rwTry_valid_or_stay w stream stepSize zH retries n prev) (ih _ _)

/-- Claim C10: every successful `RandomWalkStrategy.generate` run returns a
path whose point 0 is exactly `starting_position` (stored unchecked — the
statement holds for every world, including ones where the start is
invalid), whose every later point is either valid or an exact copy of the
previous point (the stay-in-place fallback), and whose every point keeps
the starting z height. -/
theorem c10_randomwalk_path_invariants (seedStream : ℤ → ℕ → ℝ × ℝ)
    (g : ℕ → ℝ × ℝ) (w : World ℝ) (cfg : RandomWalkConfig)
    (p : List (P3 ℝ)) (md : RWMeta)
    (h : rwGenerate seedStream g w cfg = some (p, md)) :
    p.head? = some cfg.starting_position ∧
    p.length = cfg.num_steps ∧
    (∀ (i : ℕ) (hi : i + 1 < p.length),
      is_position_valid w (p.get ⟨i + 1, hi⟩) = true ∨
        p.get ⟨i + 1, hi⟩ = p.get ⟨i, Nat.lt_of_succ_lt hi⟩) ∧
    (∀ q ∈ p, q.2.2 = cfg.starting_position.2.2) := by
  by_cases h0 : cfg.num_steps = 0
  · simp [rwGenerate, h0] at h
  · simp only [rwGenerate, if_neg h0, Option.some.injEq, Prod.mk.injEq] at h
    obtain ⟨hp, -⟩ := h
    set stream := match cfg.random_seed with
      | some s => seedStream s
      | none => g with hstream
    set start := cfg.starting_position with hstart
    set tail := rwPath w stream cfg.step_size start.2.2 cfg.max_retries
      (cfg.num_steps - 1) 0 start with htail
    have hptail : p = start :: tail := hp.symm
    subst hptail
    refine ⟨rfl, ?_, ?_, ?_⟩
    · simp only [List.length_cons, htail,
        rwPath_length w stream cfg.step_size start.2.2 cfg.max_retries]
      omega
    · have hchain := rwPath_chain w stream cfg.step_size start.2.2
        cfg.max_retries (cfg.num_steps - 1) 0 start
      rw [← htail, List.chain_iff_get] at hchain
      intro i hi
      cases i with
      | zero =>
        have h0l : 0 < tail.length := by
          simpa using hi
        simpa using hchain.1 h0l
      | succ j =>
        have hj : j < tail.length - 1 := by
          simp only [List.length_cons] at hi
          omega
        simpa using hchain.2 j hj
    · intro q hq
      rcases List.mem_cons.mp hq with hq | hq
      · subst hq; rfl
      · exact rwPath_z w stream cfg.step_size start.2.2 cfg.max_retries
          (cfg.num_steps - 1) 0 start rfl q (htail ▸ hq)

theorem c10_randomwalk_path_invariants_witness :
    rwGenerate (fun _ _ => (0, 0)) (fun _ => (0, 0)) Wtriv c10cfg =
      some ([(0, 0, 0)], ⟨"RandomWalk", 0, 1, 1⟩) ∧
    ([((0 : ℝ), (0 : ℝ), (0 : ℝ))].head? = some c10cfg.starting_position ∧
      [((0 : ℝ), (0 : ℝ), (0 : ℝ))].length = c10cfg.num_steps ∧
      (∀ (i : ℕ) (hi : i + 1 < [((0 : ℝ), (0 : ℝ), (0 : ℝ))].length),
        is_position_valid Wtriv ([((0 : ℝ), (0 : ℝ), (0 : ℝ))].get ⟨i + 1, hi⟩) = true ∨
          [((0 : ℝ), (0 : ℝ), (0 : ℝ))].get ⟨i + 1, hi⟩ =
            [((0 : ℝ), (0 : ℝ), (0 : ℝ))].get ⟨i, Nat.lt_of_succ_lt hi⟩) ∧
      (∀ q ∈ [((0 : ℝ), (0 : ℝ), (0 : ℝ))], q.2.2 = c10cfg.starting_position.2.2)) := by
  have h : rwGenerate (fun _ _ => (0, 0)) (fun _ => (0, 0)) Wtriv c10cfg =
      some ([(0, 0, 0)], ⟨"RandomWalk", 0, 1, 1⟩) := by
    norm_num [rwGenerate, rwPath, pairwiseDists, c10cfg]
  exact ⟨h, c10_randomwalk_path_invariants (fun _ _ => (0, 0)) (fun _ => (0, 0))
    Wtriv c10cfg [(0, 0, 0)] ⟨"RandomWalk", 0, 1, 1⟩ h⟩

lemma dist3_self (p : P3 ℝ) : dist3 p p = 0 := by
  simp [dist3]

lemma losSamples_length (p1 p2 : P3 ℝ) (s : ℝ) :
    (losSamples p1 p2 s).length = Int.toNat ⌊dist3 p1 p2 / s⌋ := by
  simp only [losSamples, List.length_map, List.length_range]

lemma losSamples_mem {p1 p2 : P3 ℝ} {s : ℝ} {q : P3 ℝ}
    (hq : q ∈ losSamples p1 p2 s) :
    ∃ i : ℕ, i < Int.toNat ⌊dist3 p1 p2 / s⌋ ∧
      p1 + (((i : ℝ) + 1) * s) • ((1 / dist3 p1 p2) • (p2 - p1)) = q := by
  have hq2 : q ∈ (List.range (Int.toNat ⌊dist3 p1 p2 / s⌋)).map
      (fun i : ℕ => p1 + (((i : ℝ) + 1) * s) • ((1 / dist3 p1 p2) • (p2 - p1))) := hq
  rw [List.mem_map] at hq2
  obtain ⟨i, hi, hfi⟩ := hq2
  exact ⟨i, List.mem_range.mp hi, hfi⟩

lemma dist3_unit_x : dist3 ((0 : ℝ), 0, 0) (1, 0, 0) = 1 := by
  have : ((1 : ℝ) - 0) ^ 2 + (0 - 0) ^ 2 + (0 - 0) ^ 2 = 1 := by norm_num
  rw [dist3, this, Real.sqrt_one]

/-- Counterexample to claim C2 as stated: over the unit x-segment with
`step_size = 2` the source takes `int(dist / step_size) = 0` samples, not
`ceil(dist / step_size) = 1`; consequently the obstructed midpoint is never
tested and `check_line_of_sight` returns `true` across an obstacle. -/
theorem c2_counterexample :
    (losSamples ((0 : ℝ), 0, 0) (1, 0, 0) 2).length = 0 ∧
    Int.toNat ⌈dist3 ((0 : ℝ), 0, 0) (1, 0, 0) / 2⌉ = 1 ∧
    (losSamples ((0 : ℝ), 0, 0) (1, 0, 0) 2).length ≠
      Int.toNat ⌈dist3 ((0 : ℝ), 0, 0) (1, 0, 0) / 2⌉ ∧
    check_line_of_sight c2w ((0 : ℝ), 0, 0) (1, 0, 0) 2 = true ∧
    is_position_valid c2w ((1 : ℝ) / 2, 0, 0) = false := by
  have hfloor : ⌊dist3 ((0 : ℝ), 0, 0) (1, 0, 0) / 2⌋ = 0 := by
    rw [dist3_unit_x, Int.floor_eq_zero_iff]
    constructor <;> norm_num
  have hceil : ⌈dist3 ((0 : ℝ), 0, 0) (1, 0, 0) / 2⌉ = 1 := by
    rw [dist3_unit_x, Int.ceil_eq_iff]
    norm_num
  have hlen : (losSamples ((0 : ℝ), 0, 0) (1, 0, 0) 2).length = 0 := by
    rw [losSamples_length, hfloor]
    rfl
  refine ⟨hlen, by rw [hceil]; rfl, by rw [hlen, hceil]; norm_num, ?_, ?_⟩
  · have hnil : losSamples ((0 : ℝ), 0, 0) (1, 0, 0) 2 = [] :=
      List.length_eq_zero.mp hlen
    rw [check_line_of_sight]
    by_cases hd : dist3 ((0 : ℝ), 0, 0) (1, 0, 0) < 1 / 1000
    · rw [if_pos hd]
    · rw [if_neg hd, hnil]
      rfl
  · simp only [is_position_valid, c2w, inBoundAxis, insideObstacle,
      List.all_cons, List.all_nil]
    norm_num

/-- Claim C2 (amended): `check_line_of_sight` takes exactly
`int(dist / step_size)` — the floor, not the ceiling — samples, all lying
in the half-open segment `(p1, p2]`; it returns false iff some sample is
invalid, returns true whenever the distance is below `1e-3`, and in
particular is true on `p = p`. -/
theorem c2_line_of_sight_floor (w : World ℝ) (p1 p2 : P3 ℝ) (s : ℝ)
    (hs : 0 < s) :
    (losSamples p1 p2 s).length = Int.toNat ⌊dist3 p1 p2 / s⌋ ∧
    (1 / 1000 ≤ dist3 p1 p2 →
      (∀ q ∈ losSamples p1 p2 s,
        ∃ t : ℝ, 0 < t ∧ t ≤ 1 ∧ q = p1 + t • (p2 - p1)) ∧
      (check_line_of_sight w p1 p2 s = false ↔
        ∃ q ∈ losSamples p1 p2 s, is_position_valid w q = false)) ∧
    (dist3 p1 p2 < 1 / 1000 → check_line_of_sight w p1 p2 s = true) ∧
    (∀ p : P3 ℝ, check_line_of_sight w p p s = true) := by
  refine ⟨losSamples_length p1 p2 s, ?_, ?_, ?_⟩
  · intro hd
    have hdpos : 0 < dist3 p1 p2 := lt_of_lt_of_le (by norm_num) hd
    constructor
    · intro q hq
      obtain ⟨i, hi, hq⟩ := losSamples_mem hq
      have h1 : (i : ℤ) < ⌊dist3 p1 p2 / s⌋ := Int.lt_toNat.mp hi
      have h2 : ((i : ℤ) + 1 : ℤ) ≤ ⌊dist3 p1 p2 / s⌋ := by omega
      have h3 : ((i : ℝ) + 1) ≤ dist3 p1 p2 / s := by
        exact_mod_cast Int.le_floor.mp h2
      have hle : ((i : ℝ) + 1) * s ≤ dist3 p1 p2 := (le_div_iff₀ hs).mp h3
      refine ⟨((i : ℝ) + 1) * s / dist3 p1 p2, ?_, ?_, ?_⟩
      · have hnum : 0 < ((i : ℝ) + 1) * s :=
          mul_pos (by positivity) hs
        exact div_pos hnum hdpos
      · exact (div_le_one hdpos).mpr hle
      · rw [← hq, smul_smul, mul_one_div]
    · have hnd : ¬ dist3 p1 p2 < 1 / 1000 := not_lt.mpr hd
      rw [check_line_of_sight, if_neg hnd]
      constructor
      · intro hall
        by_contra hno
        push_neg at hno
        have hta : (losSamples p1 p2 s).all (fun q => is_position_valid w q) = true := by
          rw [List.all_eq_true]
          intro q hq
          cases hvq : is_position_valid w q with
          | false => exact absurd hvq (hno q hq)
          | true => rfl
        rw [hta] at hall
        cases hall
      · rintro ⟨q, hq, hfq⟩
        cases hall : (losSamples p1 p2 s).all (fun q => is_position_valid w q) with
        | false => rfl
        | true =>
          rw [List.all_eq_true] at hall
          have := hall q hq
          rw [hfq] at this
          cases this
  · intro hd
    rw [check_line_of_sight, if_pos hd]
  · intro p
    have h0 : dist3 p p = 0 := dist3_self p
    rw [check_line_of_sight, h0]
    norm_num

theorem c2_line_of_sight_floor_witness :
    (0 : ℝ) < 1 ∧
    ((losSamples ((0 : ℝ), 0, 0) (3, 0, 0) 1).length =
        Int.toNat ⌊dist3 ((0 : ℝ), 0, 0) (3, 0, 0) / 1⌋ ∧
      (1 / 1000 ≤ dist3 ((0 : ℝ), 0, 0) (3, 0, 0) →
        (∀ q ∈ losSamples ((0 : ℝ), 0, 0) (3, 0, 0) 1,
          ∃ t : ℝ, 0 < t ∧ t ≤ 1 ∧ q = ((0 : ℝ), 0, 0) + t • ((3, 0, 0) - ((0 : ℝ), 0, 0))) ∧
        (check_line_of_sight Wtriv ((0 : ℝ), 0, 0) (3, 0, 0) 1 = false ↔
          ∃ q ∈ losSamples ((0 : ℝ), 0, 0) (3, 0, 0) 1,
            is_position_valid Wtriv q = false)) ∧
      (dist3 ((0 : ℝ), 0, 0) (3, 0, 0) < 1 / 1000 →
        check_line_of_sight Wtriv ((0 : ℝ), 0, 0) (3, 0, 0) 1 = true) ∧
      (∀ p : P3 ℝ, check_line_of_sight Wtriv p p 1 = true)) :=
  ⟨by norm_num,
    c2_line_of_sight_floor Wtriv ((0 : ℝ), 0, 0) (3, 0, 0) 1 (by norm_num)⟩

lemma c3_arange : arange 4 1 = [0, 1, 2, 3] := by
  have hceil : ⌈(4 : ℝ) / 1⌉ = 4 := by norm_num
  have hrange : List.range (Int.toNat ⌈(4 : ℝ) / 1⌉) = [0, 1, 2, 3] := by
    rw [hceil]
    rfl
  simp only [arange, hrange, List.map_cons, List.map_nil]
  norm_num

lemma c3_grid : mathTimeGrid 4 1 = [0, 1, 2, 3, 4] := by
  rw [mathTimeGrid, c3_arange]
  rw [show ([(0 : ℝ), 1, 2, 3].getLast?) = some 3 from rfl]
  show (if (3 : ℝ) < 4 - 1 / 1000000000 then [(0 : ℝ), 1, 2, 3] ++ [4]
    else [(0 : ℝ), 1, 2, 3]) = [0, 1, 2, 3, 4]
  rw [if_pos (by norm_num : (3 : ℝ) < 4 - 1 / 1000000000)]
  rfl

lemma c3_cursor (t : ℝ) : advanceCursor [c3seg] 1 0 0 t = (0, 0) := by
  simp [advanceCursor]

lemma c3_calc (t : ℝ) : calc_position_at_t c3seg t = (-20 + 5 * t, 0, 0) := by
  simp only [calc_position_at_t, c3seg]
  norm_num

lemma c3_step (t : ℝ) (ht0 : 0 ≤ t) (ht4 : t ≤ 4) (rest : List ℝ) :
    mathSamplePath [c3seg] (t :: rest) 0 0 =
      (-20 + 5 * t, 0, 0) :: mathSamplePath [c3seg] rest 0 0 := by
  have hdur : c3seg.duration = 4 := rfl
  simp only [mathSamplePath, List.length_cons, List.length_nil, zero_add,
    c3_cursor, List.getD_cons_zero, hdur, sub_zero]
  rw [if_neg (by linarith : ¬ (4 : ℝ) < t), if_neg (by linarith : ¬ t < 0), c3_calc]

/-- Claim C3: in the scenario world (bounds `x, y ∈ [-100, 100]`, obstacle
`[-10, 10]^3`), the single constant-velocity segment (heading 0, velocity 5,
duration 4, time step 1, start `(-20, 0, 0)`) samples to the five points
with x-coordinates -20, -15, -10, -5, 0 (y = z = 0), of which the first two
are valid and the last three — on or inside the inclusive obstacle box —
are invalid. -/
theorem c3_end_to_end :
    mathGenerate [c3seg] 1 =
      .ok [((-20 : ℝ), 0, 0), (-15, 0, 0), (-10, 0, 0), (-5, 0, 0), (0, 0, 0)] ∧
    is_position_valid W3 ((-20 : ℝ), 0, 0) = true ∧
    is_position_valid W3 ((-15 : ℝ), 0, 0) = true ∧
    is_position_valid W3 ((-10 : ℝ), 0, 0) = false ∧
    is_position_valid W3 ((-5 : ℝ), 0, 0) = false ∧
    is_position_valid W3 ((0 : ℝ), 0, 0) = false := by
  refine ⟨?_, ?_, ?_, ?_, ?_, ?_⟩
  · have hsum : ([c3seg].map (fun s => s.duration)).sum = 4 := by
      simp [c3seg]
    rw [mathGenerate, hsum, c3_grid]
    have hpath : mathSamplePath [c3seg] [0, 1, 2, 3, 4] 0 0 =
        [((-20 : ℝ), 0, 0), (-15, 0, 0), (-10, 0, 0), (-5, 0, 0), (0, 0, 0)] := by
      rw [c3_step 0 (by norm_num) (by norm_num),
          c3_step 1 (by norm_num) (by norm_num),
          c3_step 2 (by norm_num) (by norm_num),
          c3_step 3 (by norm_num) (by norm_num),
          c3_step 4 (by norm_num) (by norm_num)]
      norm_num [mathSamplePath]
    rw [hpath]
  all_goals
    simp only [is_position_valid, W3, inBoundAxis, insideObstacle,
      List.all_cons, List.all_nil]
    norm_num

/-! ### A* lemmas -/

lemma popMin_none {l : List (ℝ × ℕ)} (h : popMin l = none) : l = [] := by
  cases l with
  | nil => rfl
  | cons a t =>
    exfalso
    cases ht : popMin t with
    | none =>
      simp only [popMin, ht] at h
      exact Option.noConfusion h
    | some pr =>
      obtain ⟨b, r2⟩ := pr
      simp only [popMin, ht] at h
      by_cases hc : a.1 < b.1 ∨ (a.1 = b.1 ∧ a.2 ≤ b.2)
      · rw [if_pos hc] at h; cases h
      · rw [if_neg hc] at h; cases h

lemma popMin_mem :
    ∀ {l : List (ℝ × ℕ)} {c : ℝ × ℕ} {rest : List (ℝ × ℕ)},
      popMin l = some (c, rest) → c ∈ l := by
  intro l
  induction l with
  | nil => intro c rest h; cases h
  | cons a t ih =>
    intro c rest h
    cases ht : popMin t with
    | none =>
      simp only [popMin, ht, Option.some.injEq, Prod.mk.injEq] at h
      rw [← h.1]
      simp
    | some pr =>
      obtain ⟨b, r2⟩ := pr
      simp only [popMin, ht] at h
      by_cases hc : a.1 < b.1 ∨ (a.1 = b.1 ∧ a.2 ≤ b.2)
      · rw [if_pos hc] at h
        simp only [Option.some.injEq, Prod.mk.injEq] at h
        rw [← h.1]
        simp
      · rw [if_neg hc] at h
        simp only [Option.some.injEq, Prod.mk.injEq] at h
        rw [← h.1]
        exact List.mem_cons_of_mem a (ih ht)

lemma popMin_subset :
    ∀ {l : List (ℝ × ℕ)} {c : ℝ × ℕ} {rest : List (ℝ × ℕ)},
      popMin l = some (c, rest) → ∀ x ∈ rest, x ∈ l := by
  intro l
  induction l with
  | nil => intro c rest h; cases h
  | cons a t ih =>
    intro c rest h
    cases ht : popMin t with
    | none =>
      simp only [popMin, ht, Option.some.injEq, Prod.mk.injEq] at h
      intro x hx
      rw [← h.2] at hx
      cases hx
    | some pr =>
      obtain ⟨b, r2⟩ := pr
      simp only [popMin, ht] at h
      by_cases hc : a.1 < b.1 ∨ (a.1 = b.1 ∧ a.2 ≤ b.2)
      · rw [if_pos hc] at h
        simp only [Option.some.injEq, Prod.mk.injEq] at h
        intro x hx
        rw [← h.2] at hx
        exact List.mem_cons_of_mem a hx
      · rw [if_neg hc] at h
        simp only [Option.some.injEq, Prod.mk.injEq] at h
        intro x hx
        rw [← h.2] at hx
        rcases List.mem_cons.mp hx with hx | hx
        · exact hx ▸ List.mem_cons_self a t
        · exact List.mem_cons_of_mem a (ih ht x hx)

lemma popMin_length :
    ∀ {l : List (ℝ × ℕ)} {c : ℝ × ℕ} {rest : List (ℝ × ℕ)},
      popMin l = some (c, rest) → l.length = rest.length + 1 := by
  intro l
  induction l with
  | nil => intro c rest h; cases h
  | cons a t ih =>
    intro c rest h
    cases ht : popMin t with
    | none =>
      simp only [popMin, ht, Option.some.injEq, Prod.mk.injEq] at h
      rw [← h.2]
      simp [popMin_none ht]
    | some pr =>
      obtain ⟨b, r2⟩ := pr
      simp only [popMin, ht] at h
      by_cases hc : a.1 < b.1 ∨ (a.1 = b.1 ∧ a.2 ≤ b.2)
      · rw [if_pos hc] at h
        simp only [Option.some.injEq, Prod.mk.injEq] at h
        rw [← h.2]
        rfl
      · rw [if_neg hc] at h
        simp only [Option.some.injEq, Prod.mk.injEq] at h
        rw [← h.2]
        have := ih ht
        simp only [List.length_cons]
        omega

lemma processNeighbor_open (nodes : List (P3 ℝ)) (endIdx current : ℕ)
    (st : AStarState) (nb : ℕ) :
    ∃ r, (processNeighbor nodes endIdx current st nb).openSet = st.openSet ++ r ∧
      r.length ≤ 1 ∧ ∀ x ∈ r, x.2 = nb := by
  cases hgc : st.gScore current with
  | none =>
    refine ⟨[], ?_, by simp, by simp⟩
    simp [processNeighbor, hgc]
  | some gc =>
    cases hgn : st.gScore nb with
    | none =>
      refine ⟨[(gc + dist3 (nodes.getD current default3) (nodes.getD nb default3) +
        dist3 (nodes.getD nb default3) (nodes.getD endIdx default3), nb)], ?_, by simp, ?_⟩
      · simp only [processNeighbor, hgc, hgn]
        rfl
      · intro x hx
        simp only [List.mem_singleton] at hx
        rw [hx]
    | some gn =>
      by_cases hlt : gc + dist3 (nodes.getD current default3) (nodes.getD nb default3) < gn
      · refine ⟨[(gc + dist3 (nodes.getD current default3) (nodes.getD nb default3) +
          dist3 (nodes.getD nb default3) (nodes.getD endIdx default3), nb)], ?_, by simp, ?_⟩
        · simp only [processNeighbor, hgc, hgn, decide_eq_true_eq]
          rw [if_pos hlt]
        · intro x hx
          simp only [List.mem_singleton] at hx
          rw [hx]
      · refine ⟨[], ?_, by simp, by simp⟩
        simp only [processNeighbor, hgc, hgn, decide_eq_true_eq]
        rw [if_neg hlt]
        simp

lemma processNeighbor_visited (nodes : List (P3 ℝ)) (endIdx current : ℕ)
    (st : AStarState) (nb : ℕ) :
    (processNeighbor nodes endIdx current st nb).visited = st.visited := by
  cases hgc : st.gScore current with
  | none => simp [processNeighbor, hgc]
  | some gc =>
    cases hgn : st.gScore nb with
    | none =>
      simp only [processNeighbor, hgc, hgn]
      rfl
    | some gn =>
      by_cases hlt : gc + dist3 (nodes.getD current default3) (nodes.getD nb default3) < gn
      · simp only [processNeighbor, hgc, hgn, decide_eq_true_eq]
        rw [if_pos hlt]
      · simp only [processNeighbor, hgc, hgn, decide_eq_true_eq]
        rw [if_neg hlt]

lemma foldl_processNeighbor_open (nodes : List (P3 ℝ)) (endIdx current : ℕ) :
    ∀ (nbrs : List ℕ) (st : AStarState),
      (∀ x ∈ (nbrs.foldl (processNeighbor nodes endIdx current) st).openSet,
        x ∈ st.openSet ∨ x.2 ∈ nbrs) ∧
      (nbrs.foldl (processNeighbor nodes endIdx current) st).openSet.length ≤
        st.openSet.length + nbrs.length := by
  intro nbrs
  induction nbrs with
  | nil => intro st; exact ⟨fun x hx => Or.inl hx, by simp⟩
  | cons nb nbrs ih =>
    intro st
    obtain ⟨r, hopen, hlen, hmem⟩ := processNeighbor_open nodes endIdx current st nb
    constructor
    · intro x hx
      rcases (ih (processNeighbor nodes endIdx current st nb)).1 x hx with hx2 | hx2
      · rw [hopen] at hx2
        rcases List.mem_append.mp hx2 with hx3 | hx3
        · exact Or.inl hx3
        · exact Or.inr (by simp [hmem x hx3])
      · exact Or.inr (List.mem_cons_of_mem nb hx2)
    · calc (List.foldl (processNeighbor nodes endIdx current)
            (processNeighbor nodes endIdx current st nb) nbrs).openSet.length ≤
            (processNeighbor nodes endIdx current st nb).openSet.length + nbrs.length :=
            (ih _).2
        _ ≤ st.openSet.length + 1 + nbrs.length := by
            rw [hopen, List.length_append]
            omega
        _ = st.openSet.length + (nb :: nbrs).length := by
            simp only [List.length_cons]
            omega

lemma foldl_processNeighbor_visited (nodes : List (P3 ℝ)) (endIdx current : ℕ) :
    ∀ (nbrs : List ℕ) (st : AStarState),
      (nbrs.foldl (processNeighbor nodes endIdx current) st).visited = st.visited := by
  intro nbrs
  induction nbrs with
  | nil => intro st; rfl
  | cons nb nbrs ih =>
    intro st
    rw [List.foldl_cons, ih, processNeighbor_visited]

lemma sum_filter_cons_erase (f : ℕ → ℕ) (vis : List ℕ) (c : ℕ) (hcv : c ∉ vis) :
    ∀ l : List ℕ, l.Nodup → c ∈ l →
      ((l.filter (fun u => u ∉ c :: vis)).map f).sum + f c =
        ((l.filter (fun u => u ∉ vis)).map f).sum := by
  intro l
  induction l with
  | nil => intro _ hc; cases hc
  | cons a l ih =>
    intro hnd hc
    obtain ⟨hal, hndl⟩ := List.nodup_cons.mp hnd
    by_cases hac : a = c
    · subst hac
      have h1 : (a :: l).filter (fun u => u ∉ a :: vis) =
          l.filter (fun u => u ∉ a :: vis) := by
        rw [List.filter_cons]
        simp
      have h2 : (a :: l).filter (fun u => u ∉ vis) =
          a :: l.filter (fun u => u ∉ vis) := by
        rw [List.filter_cons]
        simp [hcv]
      have h3 : l.filter (fun u => u ∉ a :: vis) = l.filter (fun u => u ∉ vis) := by
        apply List.filter_congr
        intro x hx
        have hxa : ¬ x = a := fun he => hal (he ▸ hx)
        simp [List.mem_cons, hxa]
      rw [h1, h2, h3, List.map_cons, List.sum_cons]
      omega
    · have hcl : c ∈ l := by
        rcases List.mem_cons.mp hc with h | h
        · exact absurd h.symm hac
        · exact h
      by_cases hav : a ∈ vis
      · have h1 : (a :: l).filter (fun u => u ∉ c :: vis) =
            l.filter (fun u => u ∉ c :: vis) := by
          rw [List.filter_cons]
          simp [List.mem_cons, hav]
        have h2 : (a :: l).filter (fun u => u ∉ vis) =
            l.filter (fun u => u ∉ vis) := by
          rw [List.filter_cons]
          simp [hav]
        rw [h1, h2]
        exact ih hndl hcl
      · have h1 : (a :: l).filter (fun u => u ∉ c :: vis) =
            a :: l.filter (fun u => u ∉ c :: vis) := by
          rw [List.filter_cons]
          simp [List.mem_cons, hac, hav]
        have h2 : (a :: l).filter (fun u => u ∉ vis) =
            a :: l.filter (fun u => u ∉ vis) := by
          rw [List.filter_cons]
          simp [hav]
        rw [h1, h2, List.map_cons, List.sum_cons, List.map_cons, List.sum_cons]
        have := ih hndl hcl
        omega

lemma measure_S_cons (adj : ℕ → List ℕ) (n : ℕ) (vis : List ℕ) (c : ℕ)
    (hc : c < n) (hcv : c ∉ vis) :
    (((List.range n).filter (fun u => u ∉ c :: vis)).map
        (fun u => (adj u).length)).sum + (adj c).length =
      (((List.range n).filter (fun u => u ∉ vis)).map
        (fun u => (adj u).length)).sum :=
  sum_filter_cons_erase (fun u => (adj u).length) vis c hcv (List.range n)
    (List.nodup_range n) (List.mem_range.mpr hc)

lemma aStarLoop_not_reachable (nodes : List (P3 ℝ)) (adj : ℕ → List ℕ)
    (s e : ℕ) (hadj : ∀ u v, v ∈ adj u → v < nodes.length)
    (hnr : ¬ ReachableFrom adj s e) :
    ∀ (fuel : ℕ) (st : AStarState),
      (∀ x ∈ st.openSet, ReachableFrom adj s x.2 ∧ x.2 < nodes.length) →
      aStarMeasure adj nodes.length st < fuel →
      aStarLoop nodes adj e fuel st = some [] := by
  intro fuel
  induction fuel with
  | zero => intro st _ hm; exact absurd hm (Nat.not_lt_zero _)
  | succ fuel ih =>
    intro st hinv hm
    cases hpop : popMin st.openSet with
    | none => simp only [aStarLoop, hpop]
    | some pr =>
      obtain ⟨c, rest⟩ := pr
      obtain ⟨hreach, hlt⟩ := hinv c (popMin_mem hpop)
      have hne : ¬ c.2 = e := fun h => hnr (h ▸ hreach)
      simp only [aStarLoop, hpop]
      rw [if_neg hne]
      have hlen := popMin_length hpop
      have hm2 : st.openSet.length +
          (((List.range nodes.length).filter (fun u => u ∉ st.visited)).map
            (fun u => (adj u).length)).sum < fuel + 1 := hm
      by_cases hv : c.2 ∈ st.visited
      · rw [if_pos hv]
        apply ih
        · intro x hx
          exact hinv x (popMin_subset hpop x hx)
        · have hgoal : aStarMeasure adj nodes.length { st with openSet := rest } =
              rest.length +
                (((List.range nodes.length).filter (fun u => u ∉ st.visited)).map
                  (fun u => (adj u).length)).sum := rfl
          rw [hgoal]
          omega
      · rw [if_neg hv]
        apply ih
        · intro x hx
          rcases (foldl_processNeighbor_open nodes e c.2 (adj c.2)
              { st with openSet := rest, visited := c.2 :: st.visited }).1 x hx with
            hx2 | hx2
          · exact hinv x (popMin_subset hpop x hx2)
          · exact ⟨Relation.ReflTransGen.tail hreach hx2, hadj c.2 x.2 hx2⟩
        · have hvis2 : ((adj c.2).foldl (processNeighbor nodes e c.2)
              { st with openSet := rest, visited := c.2 :: st.visited }).visited =
                c.2 :: st.visited :=
            foldl_processNeighbor_visited nodes e c.2 (adj c.2) _
          have hopen2 : ((adj c.2).foldl (processNeighbor nodes e c.2)
              { st with openSet := rest, visited := c.2 :: st.visited }).openSet.length ≤
                rest.length + (adj c.2).length :=
            (foldl_processNeighbor_open nodes e c.2 (adj c.2) _).2
          have hS := measure_S_cons adj nodes.length st.visited c.2 hlt hv
          rw [aStarMeasure, hvis2]
          omega

lemma aStarLoop_not_reachable_weak (nodes : List (P3 ℝ)) (adj : ℕ → List ℕ)
    (s e : ℕ) (hnr : ¬ ReachableFrom adj s e) :
    ∀ (fuel : ℕ) (st : AStarState),
      (∀ x ∈ st.openSet, ReachableFrom adj s x.2) →
      aStarLoop nodes adj e fuel st = none ∨
        aStarLoop nodes adj e fuel st = some [] := by
  intro fuel
  induction fuel with
  | zero => intro st _; exact Or.inl rfl
  | succ fuel ih =>
    intro st hinv
    cases hpop : popMin st.openSet with
    | none =>
      right
      simp only [aStarLoop, hpop]
    | some pr =>
      obtain ⟨c, rest⟩ := pr
      have hreach := hinv c (popMin_mem hpop)
      have hne : ¬ c.2 = e := fun h => hnr (h ▸ hreach)
      simp only [aStarLoop, hpop]
      rw [if_neg hne]
      by_cases hv : c.2 ∈ st.visited
      · rw [if_pos hv]
        exact ih _ (fun x hx => hinv x (popMin_subset hpop x hx))
      · rw [if_neg hv]
        apply ih
        intro x hx
        rcases (foldl_processNeighbor_open nodes e c.2 (adj c.2)
            { st with openSet := rest, visited := c.2 :: st.visited }).1 x hx with
          hx2 | hx2
        · exact hinv x (popMin_subset hpop x hx2)
        · exact Relation.ReflTransGen.tail hreach hx2

lemma aStarLoop_step_process_single (nodes : List (P3 ℝ)) (adj : ℕ → List ℕ)
    (endIdx fuel k : ℕ) (hf : fuel = k + 1) (cf : ℝ) (ci : ℕ)
    (cameFrom : ℕ → Option ℕ) (gScore fScore : ℕ → Option ℝ) (visited : List ℕ)
    (hne : ¬ ci = endIdx) (hnv : ci ∉ visited) :
    aStarLoop nodes adj endIdx fuel ⟨[(cf, ci)], cameFrom, gScore, fScore, visited⟩ =
      aStarLoop nodes adj endIdx k
        ((adj ci).foldl (processNeighbor nodes endIdx ci)
          ⟨[], cameFrom, gScore, fScore, ci :: visited⟩) := by
  subst hf
  have hpop : popMin [(cf, ci)] = some ((cf, ci), []) := rfl
  simp only [aStarLoop, hpop]
  rw [if_neg hne, if_neg hnv]

lemma processNeighbor_push (nodes : List (P3 ℝ)) (endIdx current : ℕ)
    (st : AStarState) (nb : ℕ) (gc : ℝ)
    (hgc : st.gScore current = some gc) (hgn : st.gScore nb = none) :
    processNeighbor nodes endIdx current st nb =
      { openSet := st.openSet ++
          [(gc + dist3 (nodes.getD current default3) (nodes.getD nb default3) +
            dist3 (nodes.getD nb default3) (nodes.getD endIdx default3), nb)],
        cameFrom := fun v => if v = nb then some current else st.cameFrom v,
        gScore := fun v => if v = nb then
            some (gc + dist3 (nodes.getD current default3) (nodes.getD nb default3))
          else st.gScore v,
        fScore := fun v => if v = nb then
            some (gc + dist3 (nodes.getD current default3) (nodes.getD nb default3) +
              dist3 (nodes.getD nb default3) (nodes.getD endIdx default3))
          else st.fScore v,
        visited := st.visited } := by
  simp only [processNeighbor, hgc, hgn]
  rfl

lemma processNeighbor_noimprove (nodes : List (P3 ℝ)) (endIdx current : ℕ)
    (st : AStarState) (nb : ℕ) (gc gn : ℝ)
    (hgc : st.gScore current = some gc) (hgn : st.gScore nb = some gn)
    (hge : ¬ (gc + dist3 (nodes.getD current default3) (nodes.getD nb default3) < gn)) :
    processNeighbor nodes endIdx current st nb = st := by
  simp only [processNeighbor, hgc, hgn, decide_eq_true_eq]
  rw [if_neg hge]

lemma dist3_x (a b : ℝ) : dist3 (a, 0, 0) (b, 0, 0) = |b - a| := by
  rw [dist3]
  have h : (b - a) ^ 2 + ((0 : ℝ) - 0) ^ 2 + ((0 : ℝ) - 0) ^ 2 = (b - a) ^ 2 := by
    ring
  rw [h, Real.sqrt_sq_eq_abs]

lemma c6_chain :
    a_star_search 10 nodes3 adj3 0 2 = some [((0 : ℝ), 0, 0), (1, 0, 0), (2, 0, 0)] := by
  have hg0 : nodes3.getD 0 default3 = ((0 : ℝ), 0, 0) := rfl
  have hg1 : nodes3.getD 1 default3 = ((1 : ℝ), 0, 0) := rfl
  have hg2 : nodes3.getD 2 default3 = ((2 : ℝ), 0, 0) := rfl
  have hAB : dist3 ((0 : ℝ), 0, 0) ((1 : ℝ), 0, 0) = 1 := by rw [dist3_x]; norm_num
  have hBA : dist3 ((1 : ℝ), 0, 0) ((0 : ℝ), 0, 0) = 1 := by rw [dist3_x]; norm_num
  have hBC : dist3 ((1 : ℝ), 0, 0) ((2 : ℝ), 0, 0) = 1 := by rw [dist3_x]; norm_num
  have hAC : dist3 ((0 : ℝ), 0, 0) ((2 : ℝ), 0, 0) = 2 := by rw [dist3_x]; norm_num
  have hCC : dist3 ((2 : ℝ), 0, 0) ((2 : ℝ), 0, 0) = 0 := dist3_self _
  rw [a_star_search, hg0, hg2, hAC]
  rw [aStarLoop_step_process_single nodes3 adj3 2 10 9 rfl 0 0
    (fun _ => none) (fun v => if v = 0 then some 0 else none)
    (fun v => if v = 0 then some 2 else none) [] (by norm_num) (by simp)]
  rw [show adj3 0 = [1] from rfl, List.foldl_cons, List.foldl_nil]
  rw [processNeighbor_push nodes3 2 0
    ⟨[], fun _ => none, fun v => if v = 0 then some 0 else none,
      fun v => if v = 0 then some 2 else none, [0]⟩ 1 0 rfl rfl]
  rw [hg0, hg1, hg2, hAB, hBC]
  norm_num
  rw [aStarLoop_step_process_single nodes3 adj3 2 9 8 rfl 2 1
    (fun v => if v = 1 then some 0 else none)
    (fun v => if v = 1 then some 1 else if v = 0 then some 0 else none)
    (fun v => if v = 1 then some 2 else if v = 0 then some 2 else none)
    [0] (by norm_num) (by simp)]
  rw [show adj3 1 = [0, 2] from rfl, List.foldl_cons, List.foldl_cons,
    List.foldl_nil]
  rw [processNeighbor_noimprove nodes3 2 1
    ⟨[], fun v => if v = 1 then some 0 else none,
      fun v => if v = 1 then some 1 else if v = 0 then some 0 else none,
      fun v => if v = 1 then some 2 else if v = 0 then some 2 else none,
      [1, 0]⟩ 0 1 0 rfl rfl (by rw [hg1, hg0, hBA]; norm_num)]
  rw [processNeighbor_push nodes3 2 1
    ⟨[], fun v => if v = 1 then some 0 else none,
      fun v => if v = 1 then some 1 else if v = 0 then some 0 else none,
      fun v => if v = 1 then some 2 else if v = 0 then some 2 else none,
      [1, 0]⟩ 2 1 rfl rfl]
  rw [hg1, hg2, hBC, hCC]
  norm_num
  rfl

/-- Claim C6: on the three-node chain graph A-B-C (A not directly connected
to C), `a_star_search` from A to C returns the path `[A, B, C]`; and on any
graph whose start and goal are not connected (no adjacency path from start
to goal), it never returns a non-empty path — for every fuel the result is
`none` (fuel exhausted, an artifact of the fueled embedding) or `some []`,
and with fuel at least `aStarFuelBound` (which bounds every actual run) it
is exactly the empty list the source returns. -/
theorem c6_a_star_chain_and_disconnected :
    a_star_search 10 nodes3 adj3 0 2 =
      some [((0 : ℝ), 0, 0), (1, 0, 0), (2, 0, 0)] ∧
    ∀ (fuel : ℕ) (nodes : List (P3 ℝ)) (adj : ℕ → List ℕ) (s e : ℕ),
      s < nodes.length → (∀ u v, v ∈ adj u → v < nodes.length) →
      ¬ ReachableFrom adj s e →
      (a_star_search fuel nodes adj s e = none ∨
        a_star_search fuel nodes adj s e = some []) ∧
      (aStarFuelBound adj nodes.length ≤ fuel →
        a_star_search fuel nodes adj s e = some []) := by
  refine ⟨c6_chain, ?_⟩
  intro fuel nodes adj s e hs hadj hnr
  constructor
  · rw [a_star_search]
    apply aStarLoop_not_reachable_weak nodes adj s e hnr fuel
    intro x hx
    simp only [List.mem_singleton] at hx
    rw [hx]
    exact Relation.ReflTransGen.refl
  · intro hfuel
    rw [a_star_search]
    apply aStarLoop_not_reachable nodes adj s e hadj hnr fuel
    · intro x hx
      simp only [List.mem_singleton] at hx
      rw [hx]
      exact ⟨Relation.ReflTransGen.refl, hs⟩
    · have hfil : (List.range nodes.length).filter
          (fun u => u ∉ ([] : List ℕ)) = List.range nodes.length := by
        simp
      have hmeas : aStarMeasure adj nodes.length
          ⟨[((0 : ℝ), s)], fun _ => none,
            fun v => if v = s then some 0 else none,
            fun v => if v = s then
                some (dist3 (nodes.getD s default3) (nodes.getD e default3))
              else none, []⟩ =
          1 + ((List.range nodes.length).map (fun u => (adj u).length)).sum := by
        rw [aStarMeasure]
        dsimp only
        rw [hfil]
        rfl
      rw [aStarFuelBound] at hfuel
      rw [hmeas]
      omega

theorem c6_a_star_disconnected_witness :
    a_star_search 2 [((0 : ℝ), 0, 0), (1, 0, 0)] (fun _ => []) 0 1 = some [] := by
  have hnr : ¬ ReachableFrom (fun _ => ([] : List ℕ)) 0 1 := by
    intro h
    rcases Relation.ReflTransGen.cases_head h with heq | ⟨c, hc, -⟩
    · exact absurd heq (by norm_num)
    · cases hc
  have h := (c6_a_star_chain_and_disconnected.2 2 [((0 : ℝ), 0, 0), (1, 0, 0)]
    (fun _ => []) 0 1 (by norm_num) (by intro u v hv; cases hv) hnr).2
  apply h
  rw [aStarFuelBound]
  simp

lemma gnLoop_none (w : World ℝ) (smooth : List (P3 ℝ) → List (P3 ℝ))
    (fuel : ℕ) (nodes : List (P3 ℝ)) (adj : ℕ → List ℕ) (minDist : ℝ)
    (smoothing : Bool) (stream : ℕ → ℕ × ℕ) :
    ∀ (remaining i : ℕ),
      (∀ j, i ≤ j → j < i + remaining →
        gnAttempt w smooth fuel nodes adj minDist smoothing (stream j) = none) →
      gnLoop w smooth fuel nodes adj minDist smoothing stream remaining i = none := by
  intro remaining
  induction remaining with
  | zero => intro i _; rfl
  | succ remaining ih =>
    intro i hall
    have hi : gnAttempt w smooth fuel nodes adj minDist smoothing (stream i) = none :=
      hall i le_rfl (by omega)
    simp only [gnLoop, hi]
    exact ih (i + 1) (fun j hj1 hj2 => hall j (by omega) (by omega))

lemma gnLoop_some (w : World ℝ) (smooth : List (P3 ℝ) → List (P3 ℝ))
    (fuel : ℕ) (nodes : List (P3 ℝ)) (adj : ℕ → List ℕ) (minDist : ℝ)
    (smoothing : Bool) (stream : ℕ → ℕ × ℕ) :
    ∀ (remaining i : ℕ) (p : List (P3 ℝ)),
      gnLoop w smooth fuel nodes adj minDist smoothing stream remaining i = some p →
      ∃ j, i ≤ j ∧ j < i + remaining ∧
        gnAttempt w smooth fuel nodes adj minDist smoothing (stream j) = some p := by
  intro remaining
  induction remaining with
  | zero => intro i p h; cases h
  | succ remaining ih =>
    intro i p h
    cases hi : gnAttempt w smooth fuel nodes adj minDist smoothing (stream i) with
    | some q =>
      simp only [gnLoop, hi] at h
      exact ⟨i, le_rfl, by omega, by rw [hi, h]⟩
    | none =>
      simp only [gnLoop, hi] at h
      obtain ⟨j, hj1, hj2, hj3⟩ := ih (i + 1) p h
      exact ⟨j, by omega, by omega, hj3⟩

/-- Claim C7: with a loaded graph, `GraphNavStrategy.generate` raises the
fatal too-small error whenever the graph has fewer than 2 nodes; it returns
a path only when some attempt among the 100 budgeted ones succeeds — i.e.
the sampled indices differ, A* returns a nonempty path of total length at
least `min_path_distance`, and with smoothing enabled every sample of the
smoothed path is valid — and when no attempt succeeds it raises the fatal
failed-to-find error instead of returning any partial result. -/
theorem c7_graphnav_error_handling (w : World ℝ)
    (smooth : List (P3 ℝ) → List (P3 ℝ)) (fuel : ℕ) (cfg : GNConfig)
    (stream : ℕ → ℕ × ℕ) (nodes : List (P3 ℝ)) (adj : ℕ → List ℕ)
    (hpre : cfg.precomputed = some (nodes, adj)) :
    (nodes.length < 2 →
      gnGenerate w smooth fuel cfg stream =
        .error "Graph is too small (less than 2 nodes).") ∧
    (∀ out, gnGenerate w smooth fuel cfg stream = .ok out →
      2 ≤ nodes.length ∧
      ∃ i, i < 100 ∧ ∃ p,
        gnAttempt w smooth fuel nodes adj cfg.min_path_distance
          cfg.enable_smoothing (stream i) = some p ∧
        out = gnReparam cfg.velocity cfg.time_step p) ∧
    ((∀ i, i < 100 →
        gnAttempt w smooth fuel nodes adj cfg.min_path_distance
          cfg.enable_smoothing (stream i) = none) →
      2 ≤ nodes.length →
      gnGenerate w smooth fuel cfg stream =
        .error "GraphNav Error: Failed to find a valid path after maximum attempts.") ∧
    (∀ pr p,
      gnAttempt w smooth fuel nodes adj cfg.min_path_distance
        cfg.enable_smoothing pr = some p →
      pr.1 ≠ pr.2 ∧ ∃ raw, raw ≠ [] ∧
        a_star_search fuel nodes adj pr.1 pr.2 = some raw ∧
        ¬ (pairwiseDists raw).sum < cfg.min_path_distance ∧
        ((cfg.enable_smoothing = true ∧ p = smooth raw ∧
            (smooth raw).all (fun q => is_position_valid w q) = true) ∨
          (cfg.enable_smoothing = false ∧ p = raw))) := by
  refine ⟨?_, ?_, ?_, ?_⟩
  · intro hsmall
    simp only [gnGenerate, hpre]
    rw [if_pos hsmall]
  · intro out hout
    simp only [gnGenerate, hpre] at hout
    by_cases hsmall : nodes.length < 2
    · rw [if_pos hsmall] at hout
      cases hout
    · rw [if_neg hsmall] at hout
      refine ⟨by omega, ?_⟩
      cases hl : gnLoop w smooth fuel nodes adj cfg.min_path_distance
          cfg.enable_smoothing stream 100 0 with
      | none =>
        rw [hl] at hout
        exact Except.noConfusion (show (Except.error
          "GraphNav Error: Failed to find a valid path after maximum attempts." :
            Except String (List (P3 ℝ))) = .ok out from hout)
      | some p =>
        rw [hl] at hout
        obtain ⟨j, _, hj2, hj3⟩ := gnLoop_some w smooth fuel nodes adj
          cfg.min_path_distance cfg.enable_smoothing stream 100 0 p hl
        refine ⟨j, by omega, p, hj3, ?_⟩
        have hout2 : Except.ok (gnReparam cfg.velocity cfg.time_step p) =
            Except.ok out := hout
        cases hout2
        rfl
  · intro hall hbig
    simp only [gnGenerate, hpre]
    rw [if_neg (by omega : ¬ nodes.length < 2)]
    rw [gnLoop_none w smooth fuel nodes adj cfg.min_path_distance
      cfg.enable_smoothing stream 100 0 (fun j _ hj => hall j (by omega))]
  · intro pr p hat
    rw [gnAttempt] at hat
    by_cases heq : pr.1 = pr.2
    · rw [if_pos heq] at hat
      cases hat
    · rw [if_neg heq] at hat
      refine ⟨heq, ?_⟩
      cases ha : a_star_search fuel nodes adj pr.1 pr.2 with
      | none =>
        rw [ha] at hat
        exact Option.noConfusion
          (show (none : Option (List (P3 ℝ))) = some p from hat)
      | some raw =>
        rw [ha] at hat
        cases raw with
        | nil =>
          exact Option.noConfusion
            (show (none : Option (List (P3 ℝ))) = some p from hat)
        | cons q rest =>
          have hat2 : (if (pairwiseDists (q :: rest)).sum < cfg.min_path_distance
              then none
              else if cfg.enable_smoothing = true then
                if ((smooth (q :: rest)).all fun x => is_position_valid w x) = true
                then some (smooth (q :: rest)) else none
              else some (q :: rest)) = some p := hat
          clear hat
          by_cases hd : (pairwiseDists (q :: rest)).sum < cfg.min_path_distance
          · rw [if_pos hd] at hat2
            cases hat2
          · rw [if_neg hd] at hat2
            refine ⟨q :: rest, by simp, rfl, hd, ?_⟩
            cases hsm : cfg.enable_smoothing with
            | true =>
              rw [hsm] at hat2
              simp only [if_true] at hat2
              by_cases hv : ((smooth (q :: rest)).all
                  fun x => is_position_valid w x) = true
              · rw [if_pos hv] at hat2
                cases hat2
                exact Or.inl ⟨rfl, rfl, hv⟩
              · rw [if_neg hv] at hat2
                cases hat2
            | false =>
              rw [hsm] at hat2
              simp only [Bool.false_eq_true, if_false] at hat2
              cases hat2
              exact Or.inr ⟨rfl, rfl⟩

theorem c7_graphnav_error_handling_witness :
    gnGenerate Wtriv id 5 c7cfg (fun _ => (0, 0)) =
      .error "GraphNav Error: Failed to find a valid path after maximum attempts." := by
  have h := (c7_graphnav_error_handling Wtriv id 5 c7cfg (fun _ => (0, 0))
    [(0, 0, 0), (1, 0, 0)] (fun _ => []) rfl).2.2.1
  apply h
  · intro i _
    simp [gnAttempt]
  · simp

end SionnaJam
